import Mathlib

set_option maxRecDepth 1000000

/-!
# Verification of the Invantia Desktop retrieval core

Shallow embedding of the retrieval pipeline of the Invantia Desktop
repository: the co-occurrence vectorizer (`vectorizer.js`), the hybrid
chunk scorer, the topic packer and the envelope formatter
(`query-builder.js`).  JavaScript `Map`s are modelled as association
lists preserving insertion order, JavaScript integer counts as `ℕ`, other numbers as `ℚ` (and as `ℝ`
where square roots occur), and strings as Lean `String`s over their
character lists (ASCII model of `toLowerCase`).
-/

namespace Invantia

/-! ## JavaScript `Map` model: association list preserving insertion order -/

/-- `Map.get`: first binding of the key, if any. -/
def mget {α β : Type} [DecidableEq α] (m : List (α × β)) (k : α) : Option β :=
  (m.find? (fun p => decide (p.1 = k))).map (·.2)

/-- `Map.set`: update the value in place if the key is present, else append. -/
def mset {α β : Type} [DecidableEq α] (m : List (α × β)) (k : α) (v : β) :
    List (α × β) :=
  if (m.find? (fun p => decide (p.1 = k))).isSome then
    m.map (fun p => if p.1 = k then (k, v) else p)
  else m ++ [(k, v)]

/-! ## Tokenizer (`vectorizer.js` lines 51–79)

`tokenize` lowercases the text and scans it with the regular expression
`\b[a-z][a-z0-9\-]*\b` (global), skipping stopwords and tokens of length
less than 2.  The scanner below models the regex search: a match starts
at a letter preceded by a non-word character (or the string start), takes
the maximal run of `[a-z0-9-]`, then backtracks the greedy run until the
trailing word boundary holds. -/

def lowerAZ (c : Char) : Bool := 'a' ≤ c && c ≤ 'z'

def digitC (c : Char) : Bool := '0' ≤ c && c ≤ '9'

/-- JavaScript `\w`: `[A-Za-z0-9_]`. -/
def jsWordChar (c : Char) : Bool :=
  lowerAZ c || ('A' ≤ c && c ≤ 'Z') || digitC c || c = '_'

/-- Characters allowed after the first one: `[a-z0-9-]`. -/
def tokenChar (c : Char) : Bool := lowerAZ c || digitC c || c = '-'

/-- Is the character at index `i` a word character (out of range: no)? -/
def wordAt (l : List Char) (i : Nat) : Bool :=
  match l[i]? with
  | some c => jsWordChar c
  | none => false

/-- Word boundary `\b` between indices `i-1` and `i` (used with `1 ≤ i`). -/
def boundaryAt (l : List Char) (i : Nat) : Bool :=
  wordAt l (i - 1) != wordAt l i

/-- Can a match start at index `p`: a lowercase letter with `\b` before it. -/
def startAt (l : List Char) (p : Nat) : Bool :=
  (match l[p]? with
   | some c => lowerAZ c
   | none => false) &&
  (p = 0 || !wordAt l (p - 1))

/-- Greedy-then-backtrack search for the match end: try `e`, `e-1`, … for
`k` candidates, not going below `stop`. -/
def findEndAux (l : List Char) : Nat → Nat → Nat → Option Nat
  | _, 0, _ => none
  | e, k + 1, stop =>
    if boundaryAt l e then some e
    else if e ≤ stop then none
    else findEndAux l (e - 1) k stop

/-- One regex match attempt at position `p` (assuming `startAt`): the
largest end `e` in `[p+1, p+1+run]` with a word boundary, if any. -/
def matchEndAt (l : List Char) (p : Nat) : Option Nat :=
  let ext := ((l.drop (p + 1)).takeWhile tokenChar).length
  findEndAux l (p + 1 + ext) (ext + 1) (p + 1)

/-- The scan loop of `wordPattern.exec`: emits `(matched text, index)`
pairs left to right.  `fuel` bounds the number of steps (each step
advances the position by at least one). -/
def scanAux (l : List Char) : Nat → Nat → List (String × Nat)
  | 0, _ => []
  | fuel + 1, p =>
    if p < l.length then
      if startAt l p then
        match matchEndAt l p with
        | some e => (String.mk ((l.drop p).take (e - p)), p) :: scanAux l fuel e
        | none => scanAux l fuel (p + 1)
      else scanAux l fuel (p + 1)
    else []

/-- `CONFIG.stopwords` (`vectorizer.js` lines 28–41). -/
def stopwords : List String :=
  ["the", "be", "to", "of", "and", "a", "in", "that", "have", "i",
   "it", "for", "not", "on", "with", "he", "as", "you", "do", "at",
   "this", "but", "his", "by", "from", "they", "we", "say", "her", "she",
   "or", "an", "will", "my", "one", "all", "would", "there", "their",
   "what", "so", "up", "out", "if", "about", "who", "get", "which", "go",
   "me", "when", "make", "can", "like", "time", "no", "just", "him", "know",
   "take", "people", "into", "year", "your", "good", "some", "could", "them",
   "see", "other", "than", "then", "now", "look", "only", "come", "its", "over",
   "think", "also", "back", "after", "use", "two", "how", "our", "work",
   "first", "well", "way", "even", "new", "want", "because", "any", "these",
   "give", "day", "most", "us", "is", "was", "are", "been", "has", "had",
   "were", "said", "did", "having", "may", "should", "does", "am"]

/-- `CONFIG.windowSize`. -/
def windowSize : Nat := 7

/-- `CONFIG.minFrequency`. -/
def minFrequency : Nat := 2

/-- `CONFIG.maxTerms` (defined in the source configuration; used nowhere
else in `vectorizer.js`). -/
def maxTerms : Nat := 10000

/-- `CONFIG.minSimilarity`. -/
def minSimilarity : ℚ := 3 / 10

/-- `CONFIG.maxExpansions`. -/
def maxExpansions : Nat := 5

/-- A token occurrence: term text and character offset. -/
structure Tok where
  term : String
  position : Nat
  deriving DecidableEq, Repr

/-- `tokenize` (`vectorizer.js` lines 51–79). -/
def tokenize (text : String) : List Tok :=
  let l := text.toList.map Char.toLower
  (scanAux l l.length 0).filterMap fun tp =>
    if stopwords.contains tp.1 then none
    else if tp.1.length < 2 then none
    else some ⟨tp.1, tp.2⟩

/-- `extractPhrases` (`vectorizer.js` lines 84–108): all bigrams, then
all trigrams, each positioned at its first token. -/
def extractPhrases (tokens : List Tok) : List Tok :=
  let bigrams := List.zipWith
    (fun a b => Tok.mk (a.term ++ " " ++ b.term) a.position) tokens tokens.tail
  let trigrams := List.zipWith
    (fun a bc => Tok.mk (a.term ++ " " ++ bc.1.term ++ " " ++ bc.2.term) a.position)
    tokens (tokens.tail.zip tokens.tail.tail)
  bigrams ++ trigrams

/-! ## Co-occurrence matrix (`vectorizer.js` lines 117–178) -/

/-- Unigrams followed by phrases, as concatenated by
`buildCoOccurrenceMatrix`. -/
def allTermsOf (text : String) : List Tok :=
  tokenize text ++ extractPhrases (tokenize text)

/-- The term-frequency map of `buildCoOccurrenceMatrix`. -/
def termFreqOf (text : String) : List (String × Nat) :=
  (allTermsOf text).foldl
    (fun m item => mset m item.term ((mget m item.term).getD 0 + 1)) []

/-- The frequency-filtered positional sequence of `buildCoOccurrenceMatrix`. -/
def validTermsOf (text : String) : List Tok :=
  (allTermsOf text).filter
    (fun item => decide (minFrequency ≤ ((mget (termFreqOf text) item.term).getD 0)))

/-- The term at index `i` of the filtered sequence (`validTerms[i].term`). -/
def termAt (vt : List Tok) (i : Nat) : String :=
  ((vt.get? i).getD ⟨"", 0⟩).term

/-- One inner iteration of the sliding-window loop: for `j ≠ i`,
increment the co-occurrence count of `validTerms[j].term` in the center
vector of the center term. -/
def coStep (vt : List Tok) (i : Nat)
    (m2 : List (String × List (String × Nat))) (j : Nat) :
    List (String × List (String × Nat)) :=
  if j = i then m2
  else
    let centerTerm := termAt vt i
    let contextTerm := termAt vt j
    let cv := (mget m2 centerTerm).getD []
    mset m2 centerTerm (mset cv contextTerm ((mget cv contextTerm).getD 0 + 1))

/-- The body of the sliding-window loop for center index `i`: ensure the
center term has a vector, then increment the co-occurrence count of every
`j ≠ i` in the window `[i - windowSize, min (n-1) (i + windowSize)]`. -/
def windowStep (vt : List Tok) (m : List (String × List (String × Nat))) (i : Nat) :
    List (String × List (String × Nat)) :=
  let centerTerm := termAt vt i
  let m1 := if (mget m centerTerm).isSome then m else mset m centerTerm []
  let windowStart := i - windowSize
  let windowEnd := min (vt.length - 1) (i + windowSize)
  (List.range' windowStart (windowEnd + 1 - windowStart)).foldl (coStep vt i) m1

/-- The result of `buildCoOccurrenceMatrix`. -/
structure CoOccurrenceData where
  matrix : List (String × List (String × Nat))
  termFrequencies : List (String × Nat)
  totalTerms : Nat
  deriving DecidableEq, Repr

/-- `buildCoOccurrenceMatrix` (`vectorizer.js` lines 117–178). -/
def buildCoOccurrenceMatrix (text : String) : CoOccurrenceData :=
  let validTerms := validTermsOf text
  { matrix := (List.range validTerms.length).foldl (windowStep validTerms) []
    termFrequencies := termFreqOf text
    totalTerms := validTerms.length }


/-! ## Cosine similarity (`vectorizer.js` lines 187–215)

JavaScript floating point is modelled by exact real arithmetic: counts
are integers, the magnitudes are real square roots. -/

/-- A sparse vector: one row `matrix[T]` of the co-occurrence matrix. -/
abbrev SparseVec := List (String × Nat)

/-- The dot-product loop: entries of `vec1` whose term `vec2` also has. -/
def dotProduct (vec1 vec2 : SparseVec) : Nat :=
  vec1.foldl
    (fun acc p =>
      match mget vec2 p.1 with
      | some c2 => acc + p.2 * c2
      | none => acc) 0

/-- Sum of squared counts (the squared magnitude before `Math.sqrt`). -/
def sumSq (v : SparseVec) : Nat :=
  v.foldl (fun acc p => acc + p.2 * p.2) 0

/-- `cosineSimilarity` (`vectorizer.js` lines 187–215). -/
noncomputable def cosineSimilarity (vec1 vec2 : SparseVec) : ℝ :=
  if vec1.length = 0 ∨ vec2.length = 0 then 0
  else
    let dot : ℝ := (dotProduct vec1 vec2 : Nat)
    let mag1 : ℝ := Real.sqrt (sumSq vec1 : Nat)
    let mag2 : ℝ := Real.sqrt (sumSq vec2 : Nat)
    if mag1 = 0 ∨ mag2 = 0 then 0 else dot / (mag1 * mag2)

/-! ## Top-K similar terms (`vectorizer.js` lines 220–249) -/

/-- `String.toLowerCase` (ASCII model), over the character list. -/
def lowerString (s : String) : String :=
  String.mk (s.toList.map Char.toLower)

/-- One entry of the `similarities` array. -/
structure SimEntry where
  term : String
  similarity : ℝ

/-- The comparator `(a, b) => b.similarity - a.similarity` orders by
descending similarity; `Array.prototype.sort` is stable, so equal
similarities keep their relative (matrix-iteration) order.  This is the
relation a stable sort realises for that comparator. -/
def simGE (a b : SimEntry) : Prop := b.similarity ≤ a.similarity

noncomputable instance : DecidableRel simGE :=
  fun _ _ => Real.decidableLE _ _

/-- The collection loop of `findSimilarTerms`: walk the matrix in
insertion order, skip the query term, keep similarities that reach
`minSimilarity`. -/
noncomputable def collectSims (queryTerm : String) (queryVector : SparseVec) :
    List (String × SparseVec) → List SimEntry
  | [] => []
  | (term, termVector) :: rest =>
    if term = queryTerm then collectSims queryTerm queryVector rest
    else
      let similarity := cosineSimilarity queryVector termVector
      if (minSimilarity : ℝ) ≤ similarity then
        ⟨term, similarity⟩ :: collectSims queryTerm queryVector rest
      else collectSims queryTerm queryVector rest

/-- `findSimilarTerms` (`vectorizer.js` lines 220–249): collect, sort by
descending similarity (stable), return the first `maxResults`. -/
noncomputable def findSimilarTerms (queryTerm : String)
    (coOccurrenceData : CoOccurrenceData) (maxResults : Nat) : List SimEntry :=
  match mget coOccurrenceData.matrix (lowerString queryTerm) with
  | none => []
  | some queryVector =>
    (List.insertionSort simGE
      (collectSims (lowerString queryTerm) queryVector coOccurrenceData.matrix)).take
      maxResults

/-! ## Query expansion (`vectorizer.js` lines 258–303) -/

/-- `[...new Set(l)]`: deduplicate keeping the first occurrence of each
element, in order. -/
def jsDedup {α : Type} [DecidableEq α] (l : List α) : List α :=
  go [] l
where
  go (seen : List α) : List α → List α
    | [] => []
    | a :: rest => if a ∈ seen then go seen rest else a :: go (seen ++ [a]) rest

/-- One expansion concept returned by `expandQuery`. -/
structure Concept where
  originalTerm : String
  expandedTerms : List String
  similarities : List ℝ

/-- `expandQuery` (`vectorizer.js` lines 258–303).  The stored-vectors
lookup `InvantiaDB.getVectors(documentId)` is passed in as `vectors`
(`none` models a document with no stored index). -/
noncomputable def expandQuery (vectors : Option CoOccurrenceData)
    (queryText : String) : List Concept :=
  match vectors with
  | none =>
    (tokenize queryText).map fun t =>
      { originalTerm := t.term, expandedTerms := [t.term], similarities := [1.0] }
  | some v =>
    let queryTokens := tokenize queryText
    let queryPhrases := extractPhrases queryTokens
    let allQueryTerms := queryTokens ++ queryPhrases
    let uniqueTerms := jsDedup (allQueryTerms.map (·.term))
    uniqueTerms.map fun term =>
      let similar := findSimilarTerms term v maxExpansions
      { originalTerm := term
        expandedTerms := term :: similar.map (·.term)
        similarities := 1.0 :: similar.map (·.similarity) }

/-! ## Per-topic concept assembly (`query-builder.js` lines 550–587) -/

/-- `termMetadata` entry built by `expandQueryTopics`. -/
structure TermMeta where
  similarity : ℝ
  isOriginal : Bool

/-- The single per-topic concept consumed by the scorer. -/
structure TopicConcept where
  terms : List String
  originalTerms : List String
  termMetadata : List (String × TermMeta)

/-- The metadata-merging loop of `expandQueryTopics` (lines 562–575):
first writer wins for each term; a term is `isOriginal` when it equals
the original term of the concept itself; a missing or zero similarity falls back
to `1.0` (`exp.similarities[idx] || 1.0`). -/
noncomputable def mergeConceptMeta (expansions : List Concept) :
    List String × List (String × TermMeta) :=
  expansions.foldl
    (fun acc exp =>
      (exp.expandedTerms.enum).foldl
        (fun acc2 ti =>
          let term := ti.2
          let sim := (exp.similarities.get? ti.1).getD 0
          let meta : TermMeta :=
            { similarity := if sim = 0 then 1.0 else sim
              isOriginal := exp.originalTerm = term }
          ( acc2.1 ++ [term]
          , if (mget acc2.2 term).isSome then acc2.2 else mset acc2.2 term meta ))
        acc)
    ([], [])

/-- The concept `expandQueryTopics` builds for one topic from the
per-term expansion results (lines 555–587). -/
noncomputable def buildTopicConcept (expansions : List Concept) : TopicConcept :=
  let originalTerms := expansions.map (·.originalTerm)
  let merged := mergeConceptMeta expansions
  { terms := jsDedup merged.1
    originalTerms := originalTerms
    termMetadata := merged.2 }

/-! ## Chunk scoring (`query-builder.js` lines 969–1253)

Scores are real numbers (the pipeline feeds them the real-valued
cosine similarities). -/

/-- `SCORING_CONFIG.originalTermWeight`. -/
noncomputable def originalTermWeight : ℝ := 100

/-- `SCORING_CONFIG.semanticWeight`. -/
noncomputable def semanticWeight : ℝ := 30

/-- `SCORING_CONFIG.proximityWeight`. -/
noncomputable def proximityWeight : ℝ := 50

/-- `SCORING_CONFIG.highSimilarityThreshold`. -/
noncomputable def highSimilarityThreshold : ℝ := 7 / 10

/-- `SCORING_CONFIG.minimumScoreThreshold`. -/
noncomputable def minimumScoreThreshold : ℝ := 30

/-- `SCORING_CONFIG.proximityDistance` (characters). -/
def proximityDistance : Nat := 200

/-- Does `needle` occur at index `p` of `hay`? -/
def occursAt (hay needle : List Char) (p : Nat) : Bool :=
  needle.isPrefixOf (hay.drop p)

/-- All match offsets of `needle` in `hay`, ascending: exactly the
positions the `indexOf`/`indexOf(…, index + 1)` loop of
`calculateProximityScore` collects (for a non-empty needle). -/
def occurrencesOf (hay needle : List Char) : List Nat :=
  (List.range hay.length).filter (occursAt hay needle)

/-- JavaScript `String.includes` (an empty needle always occurs). -/
def strIncludes (hay needle : List Char) : Bool :=
  needle.isEmpty || !(occurrencesOf hay needle).isEmpty

/-- A chunk as the scorer sees it. -/
structure QChunk where
  documentId : Nat
  chunkNumber : Nat
  content : String
  deriving DecidableEq, Repr

/-- `calculateProximityScore` (`query-builder.js` lines 1220–1253):
collect all occurrence offsets of the matched terms, sort ascending,
take the minimum adjacent gap `d`; award
`proximityWeight · (1 − d / proximityDistance)` when `d` is within
`proximityDistance`, else `0`. -/
noncomputable def calculateProximityScore (content : List Char) (matchedTerms : List String) : ℝ :=
  let positions := matchedTerms.foldl
    (fun acc term => acc ++ occurrencesOf content ((lowerString term).toList)) []
  if positions.length < 2 then 0
  else
    let sorted := List.insertionSort (· ≤ ·) positions
    let gaps := List.zipWith (fun a b => b - a) sorted sorted.tail
    match gaps.min? with
    | none => 0
    | some minDistance =>
      if minDistance ≤ proximityDistance then
        proximityWeight * (1 - (minDistance : ℝ) / (proximityDistance : ℝ))
      else 0

/-- The accumulator of the `terms.forEach` loop in `scoreChunk`. -/
structure ScoreAccum where
  originalTermScore : ℝ
  semanticScore : ℝ
  matchedTerms : List String
  matchedOriginalTerms : List String

/-- Does the lowercased term occur as a substring of the (lowercased)
content (`content.includes(termLower)`)? -/
def termMatched (content : List Char) (term : String) : Bool :=
  strIncludes content ((lowerString term).toList)

/-- One iteration of the `terms.forEach` loop in `scoreChunk` (lines
1181–1200): substring match on the lowercased content, then branch on
the term metadata (defaulting to `{similarity: 0.5, isOriginal: false}`). -/
noncomputable def scoreStep (content : List Char) (concept : TopicConcept)
    (acc : ScoreAccum) (term : String) : ScoreAccum :=
  if termMatched content term then
    let metadata := (mget concept.termMetadata term).getD ⟨1 / 2, false⟩
    if metadata.isOriginal || decide (term ∈ concept.originalTerms) then
      { acc with
        originalTermScore := acc.originalTermScore + originalTermWeight
        matchedTerms := acc.matchedTerms ++ [term]
        matchedOriginalTerms := acc.matchedOriginalTerms ++ [term] }
    else if highSimilarityThreshold ≤ metadata.similarity then
      { acc with
        semanticScore := acc.semanticScore + semanticWeight * metadata.similarity
        matchedTerms := acc.matchedTerms ++ [term] }
    else
      { acc with
        semanticScore := acc.semanticScore + semanticWeight * metadata.similarity * (1 / 2)
        matchedTerms := acc.matchedTerms ++ [term] }
  else acc

/-- The score breakdown returned by `scoreChunk`. -/
structure ScoreResult where
  totalScore : ℝ
  originalTermScore : ℝ
  semanticScore : ℝ
  proximityScore : ℝ
  matchedTerms : List String
  matchedOriginalTerms : List String
  matchCount : Nat

/-- `scoreChunk` (`query-builder.js` lines 1167–1218). -/
noncomputable def scoreChunk (chunk : QChunk) (concept : TopicConcept) : ScoreResult :=
  let content := chunk.content.toList.map Char.toLower
  let acc := concept.terms.foldl (scoreStep content concept) ⟨0, 0, [], []⟩
  let proximityScore : ℝ :=
    if 2 ≤ acc.matchedTerms.length then calculateProximityScore content acc.matchedTerms
    else 0
  { totalScore := acc.originalTermScore + acc.semanticScore + proximityScore
    originalTermScore := acc.originalTermScore
    semanticScore := acc.semanticScore
    proximityScore := proximityScore
    matchedTerms := acc.matchedTerms
    matchedOriginalTerms := acc.matchedOriginalTerms
    matchCount := acc.matchedTerms.length }

/-! ## Topic execution (`query-builder.js` lines 1121–1297) -/

/-- A scored chunk (`{...chunk, relevanceScore, scoreDetails}`). -/
structure SChunk where
  chunk : QChunk
  relevanceScore : ℝ
  scoreDetails : ScoreResult

/-- The comparator `(a, b) => b.relevanceScore - a.relevanceScore`
orders by descending score; the stable sort keeps equal scores in input
order. -/
def scoreGE (a b : SChunk) : Prop := b.relevanceScore ≤ a.relevanceScore

noncomputable instance : DecidableRel scoreGE :=
  fun _ _ => Real.decidableLE _ _

/-- A topic block of the normalized query. -/
structure Block where
  topicId : Nat
  topicQuestion : String
  inclusionConcepts : List TopicConcept
  spatialCategory : String

/-- `calculateSpatialVariance` (lines 1277–1287): the standard deviation
of the chunk numbers. -/
noncomputable def calculateSpatialVariance (chunks : List SChunk) : ℝ :=
  if chunks.length = 0 then 0
  else if chunks.length = 1 then 0
  else
    let positions := chunks.map (fun c => (c.chunk.chunkNumber : ℝ))
    let mean := positions.foldl (· + ·) 0 / (positions.length : ℝ)
    let squaredDiffs := positions.map (fun pos => (pos - mean) ^ 2)
    Real.sqrt (squaredDiffs.foldl (· + ·) 0 / (positions.length : ℝ))

/-- `detectSpatialPattern` (lines 1289–1297). -/
noncomputable def detectSpatialPattern (variance : ℝ) (chunkCount : Nat) : String :=
  if chunkCount = 0 then "none"
  else if chunkCount = 1 then "single"
  else if variance < 10 then "concentrated"
  else if 50 < variance then "spread"
  else "moderate"

/-- `filterBySpatialCategory` (lines 1259–1275). -/
noncomputable def filterBySpatialCategory (chunks : List SChunk) (category : String) :
    List SChunk :=
  let variance := calculateSpatialVariance chunks
  let pattern := detectSpatialPattern variance chunks.length
  if category = "concentrated" ∧ pattern = "concentrated" then chunks
  else if category = "spread" ∧ pattern = "spread" then chunks
  else if category = "concentrated" ∨ category = "spread" then []
  else chunks

/-- `executeBlockWithScoring` (`query-builder.js` lines 1121–1161):
score every chunk with the single concept of the block, keep those at or
above `minimumScoreThreshold`, sort by descending score (stable), then
apply the spatial filter unless the category is `auto`. -/
noncomputable def executeBlockWithScoring (block : Block)
    (searchableChunks : List QChunk) : List SChunk :=
  match block.inclusionConcepts with
  | [] => []
  | concept :: _ =>
    let scoredChunks := searchableChunks.map fun c =>
      let score := scoreChunk c concept
      SChunk.mk c score.totalScore score
    let qualifyingChunks := scoredChunks.filter
      (fun c => decide (minimumScoreThreshold ≤ c.relevanceScore))
    let sorted := List.insertionSort scoreGE qualifyingChunks
    if block.spatialCategory ≠ "auto" then
      filterBySpatialCategory sorted block.spatialCategory
    else sorted

/-! ## Topic packer (`query-builder.js` lines 1358–1496)

The packer and the formatter only do character accounting with the
decimal rendering of scores, so scores are modelled here as exact
rationals and everything stays computable. -/

/-- `Number.toFixed(1)` for a non-negative rational, rounding half up:
the integer `n = ⌊10q + 1/2⌋` printed as `n/10 . n%10`. -/
def toFixed1 (q : ℚ) : String :=
  let n : ℤ := (q.num * 20 + (q.den : ℤ)).fdiv (2 * (q.den : ℤ))
  toString (n.fdiv 10) ++ "." ++ toString (n.fmod 10)

/-- A ranked chunk as the packer receives it. -/
structure PackChunk where
  documentId : Nat
  chunkNumber : Nat
  content : String
  relevanceScore : ℚ
  deriving DecidableEq, Repr

/-- A topic section of a super chunk. -/
structure TopicSection where
  topicId : Nat
  topicQuestion : String
  chunks : List PackChunk
  isContinuation : Bool
  deriving DecidableEq, Repr

/-- A super chunk. -/
structure SuperChunk where
  topics : List TopicSection
  totalChars : Nat
  isFirst : Bool
  deriving DecidableEq, Repr

/-- One topic result (`{topicId, topicQuestion, chunks}`). -/
structure TopicResult where
  topicId : Nat
  topicQuestion : String
  chunks : List PackChunk
  deriving DecidableEq, Repr

/-- `formatChatPackageHeader` (`query-builder.js` lines 1502–1513). -/
def formatChatPackageHeader (allTopics : List String) : String :=
  "[[chat package]]\n" ++
  "[[Only respond with OK until all Super Chunks have been provided to you.]]\n\n" ++
  "[[paste all super chunks sequentially]]\n\n" ++
  "[[Answer questions ONLY from the provided content and tell user if other content is needed.]]\n\n" ++
  "Questions:\n" ++
  String.join ((allTopics.enum).map
    (fun p => "  Q" ++ toString (p.1 + 1) ++ ": " ++ p.2 ++ "\n")) ++
  "\n"

/-- The per-chunk envelope whose length the packer accounts
(`query-builder.js` line 1398). -/
def chunkEnvelope (chunk : PackChunk) : String :=
  "[[chunk " ++ toString chunk.chunkNumber ++ "]] (score: " ++
    toFixed1 chunk.relevanceScore ++ ")\n" ++ chunk.content ++ "\n\n"

/-- The topic-section header whose length the packer accounts
(`query-builder.js` line 1392). -/
def topicHeaderText (topicIndex : Nat) (topicQuestion : String) : String :=
  "\n[[topic " ++ toString (topicIndex + 1) ++ ": " ++ topicQuestion ++ "]]\n\n"

/-- The chronological comparator of `sortChunksChronologically`:
ascending `documentId`, then ascending `chunkNumber`. -/
def chronoLE (a b : PackChunk) : Prop :=
  a.documentId < b.documentId ∨
    (a.documentId = b.documentId ∧ a.chunkNumber ≤ b.chunkNumber)

instance : DecidableRel chronoLE := fun a b => by
  unfold chronoLE; infer_instance

/-- `sortChunksChronologically` (`query-builder.js` lines 1489–1496). -/
def sortChunksChronologically (chunks : List PackChunk) : List PackChunk :=
  List.insertionSort chronoLE chunks

/-- The packer state across topics: character count, open topic
sections, first-super-chunk flag, super chunks emitted so far. -/
structure PackSt where
  currentChars : Nat
  currentTopics : List TopicSection
  isFirst : Bool
  done : List SuperChunk
  deriving Repr

/-- The inner chunk loop of `createSuperChunksWithTopics`
(`query-builder.js` lines 1396–1460): add each chunk to the open topic
section, closing the current super chunk first when the accounted size
would exceed the limit and something has been packed already. -/
def packChunks (maxChars headerChars thChars : Nat) (tid : Nat) (tq : String) :
    PackSt → TopicSection → List PackChunk → PackSt × TopicSection
  | st, sec, [] => (st, sec)
  | st, sec, chunk :: rest =>
    let chunkChars := (chunkEnvelope chunk).length
    let requiredSpace := chunkChars + (if sec.chunks.isEmpty then thChars else 0)
    let headerSpace := if st.isFirst then headerChars else 0
    let totalIfAdded := headerSpace + st.currentChars + requiredSpace
    if maxChars < totalIfAdded ∧ (st.currentTopics ≠ [] ∨ sec.chunks ≠ []) then
      let topics1 := if sec.chunks ≠ [] then st.currentTopics ++ [sec] else st.currentTopics
      let sc : SuperChunk := ⟨topics1, st.currentChars + headerSpace, st.isFirst⟩
      packChunks maxChars headerChars thChars tid tq
        ⟨thChars + chunkChars, [], false, st.done ++ [sc]⟩
        ⟨tid, tq, [chunk], true⟩ rest
    else
      packChunks maxChars headerChars thChars tid tq
        { st with currentChars :=
            st.currentChars + (if sec.chunks.isEmpty then thChars else 0) + chunkChars }
        { sec with chunks := sec.chunks ++ [chunk] } rest

/-- The per-topic body of `createSuperChunksWithTopics` (lines
1374–1466); `ti.1` is the topic index in the full result list. -/
def packTopic (maxChars headerChars : Nat) (st : PackSt) (ti : Nat × TopicResult) :
    PackSt :=
  let topicResult := ti.2
  if topicResult.chunks.isEmpty then st
  else
    let sortedChunks := sortChunksChronologically topicResult.chunks
    let thChars := (topicHeaderText ti.1 topicResult.topicQuestion).length
    let res := packChunks maxChars headerChars thChars topicResult.topicId
      topicResult.topicQuestion st
      ⟨topicResult.topicId, topicResult.topicQuestion, [], false⟩ sortedChunks
    if res.2.chunks ≠ [] then
      { res.1 with currentTopics := res.1.currentTopics ++ [res.2] }
    else res.1

/-- `createSuperChunksWithTopics` (`query-builder.js` lines 1358–1483). -/
def createSuperChunksWithTopics (topicResults : List TopicResult)
    (maxCharsPerSuperChunk : Nat) (allTopics : List String) : List SuperChunk :=
  let headerChars := (formatChatPackageHeader allTopics).length
  let st := (topicResults.enum).foldl
    (packTopic maxCharsPerSuperChunk headerChars) ⟨0, [], true, []⟩
  if st.currentTopics ≠ [] then
    let headerSpace := if st.isFirst then headerChars else 0
    st.done ++ [⟨st.currentTopics, st.currentChars + headerSpace, st.isFirst⟩]
  else st.done

/-! ## Envelope formatter (`query-builder.js` lines 1540–1587) -/

/-- `formatSuperChunkContent` (`query-builder.js` lines 1540–1587).
`docName` models the external `InvantiaDB.getDocument(id).name` lookup;
the document line uses the first chunk of each section (every section
the packer emits is non-empty, so the `getD 0` default is never hit on
packer output).  A zero score is falsy in JavaScript, so its
`(score: …)` part is omitted. -/
def formatSuperChunkContent (docName : Nat → String) (superChunk : SuperChunk)
    (superChunkNumber totalSuperChunks : Nat) (allTopics : Option (List String)) :
    String :=
  (if superChunk.isFirst ∧ allTopics.isSome then
      formatChatPackageHeader (allTopics.getD [])
    else "") ++
  "[[super chunk " ++ toString superChunkNumber ++ " of " ++
    toString totalSuperChunks ++ "]]\n" ++
  (if 1 < superChunkNumber then "[[continued from previous super chunk]]\n" else "") ++
  "\n" ++
  String.join (superChunk.topics.map (fun topicSection =>
    "[[topic: " ++ topicSection.topicQuestion ++
      (if topicSection.isContinuation then " (continued)" else "") ++ "]]\n\n" ++
    "[[document: " ++
      docName (((topicSection.chunks.head?).map (·.documentId)).getD 0) ++ "]]\n\n" ++
    String.join (topicSection.chunks.map (fun chunk =>
      "[[chunk " ++ toString chunk.chunkNumber ++ "]]" ++
      (if chunk.relevanceScore ≠ 0 then
          " (score: " ++ toFixed1 chunk.relevanceScore ++ ")"
        else "") ++
      "\n" ++ chunk.content ++ "\n\n")))) ++
  "[[/super chunk " ++ toString superChunkNumber ++ "]]\n" ++
  (if superChunkNumber = totalSuperChunks then "\n[[/chat package]]" else "")

/-! ## Association-list map lemmas -/

theorem mget_nil {α β : Type} [DecidableEq α] (k : α) :
    mget ([] : List (α × β)) k = none := rfl

theorem mget_cons {α β : Type} [DecidableEq α] (p : α × β) (m : List (α × β))
    (k : α) : mget (p :: m) k = if p.1 = k then some p.2 else mget m k := by
  by_cases h : p.1 = k <;> simp [mget, List.find?, h]

theorem mset_nil {α β : Type} [DecidableEq α] (k : α) (v : β) :
    mset ([] : List (α × β)) k v = [(k, v)] := by
  simp [mset, List.find?]

theorem mset_cons {α β : Type} [DecidableEq α] (p : α × β) (m : List (α × β))
    (k : α) (v : β) :
    mset (p :: m) k v =
      if p.1 = k then (k, v) :: m.map (fun q => if q.1 = k then (k, v) else q)
      else p :: mset m k v := by
  by_cases hp : p.1 = k
  · simp [mset, List.find?, hp]
  · by_cases hm : (m.find? fun q => decide (q.1 = k)).isSome
    · simp [mset, List.find?, hp, hm]
    · simp [mset, List.find?, hp, hm]

theorem mget_map_update_ne {α β : Type} [DecidableEq α] (m : List (α × β))
    (k k' : α) (v : β) (h : k' ≠ k) :
    mget (m.map fun q => if q.1 = k then (k, v) else q) k' = mget m k' := by
  induction m with
  | nil => rfl
  | cons q rest ih =>
    simp only [List.map_cons]
    by_cases hq : q.1 = k
    · rw [if_pos hq, mget_cons, mget_cons]
      have hk : ¬((k, v).1 = k') := fun hh => h hh.symm
      have hq2 : ¬(q.1 = k') := fun hh => h (hh.symm.trans hq)
      rw [if_neg hk, if_neg hq2]
      exact ih
    · rw [if_neg hq, mget_cons, mget_cons]
      by_cases hq2 : q.1 = k'
      · rw [if_pos hq2, if_pos hq2]
      · rw [if_neg hq2, if_neg hq2]
        exact ih

theorem mget_mset_self {α β : Type} [DecidableEq α] (m : List (α × β)) (k : α)
    (v : β) : mget (mset m k v) k = some v := by
  induction m with
  | nil => rw [mset_nil, mget_cons]; simp
  | cons p rest ih =>
    rw [mset_cons]
    by_cases hp : p.1 = k
    · rw [if_pos hp, mget_cons]
      simp
    · rw [if_neg hp, mget_cons, if_neg hp]
      exact ih

theorem mget_mset_of_ne {α β : Type} [DecidableEq α] (m : List (α × β))
    (k k' : α) (v : β) (h : k' ≠ k) : mget (mset m k v) k' = mget m k' := by
  induction m with
  | nil =>
    rw [mset_nil, mget_cons, if_neg (fun hh => h (Eq.symm hh))]
  | cons p rest ih =>
    rw [mset_cons]
    by_cases hp : p.1 = k
    · have hk : ¬((k, v).1 = k') := fun hh => h hh.symm
      have hp2 : ¬(p.1 = k') := by
        rw [hp]; exact fun hh => h hh.symm
      rw [if_pos hp, mget_cons, if_neg hk, mget_cons, if_neg hp2]
      exact mget_map_update_ne rest k k' v h
    · rw [if_neg hp, mget_cons, mget_cons]
      by_cases hq : p.1 = k'
      · simp [hq]
      · simp [hq, ih]

/-- A key present before `mset` is still present afterwards. -/
theorem isSome_mget_mset {α β : Type} [DecidableEq α] (m : List (α × β))
    (k k' : α) (v : β) (h : (mget m k').isSome) :
    (mget (mset m k v) k').isSome := by
  by_cases hk : k' = k
  · subst hk; rw [mget_mset_self]; rfl
  · rw [mget_mset_of_ne m k k' v hk]; exact h

/-! ## Invariants of the co-occurrence window loop -/

/-- Is the pair `matrix[T][U]` stored? -/
def pairPresent (m : List (String × List (String × Nat))) (T U : String) : Bool :=
  match mget m T with
  | some v => (mget v U).isSome
  | none => false

/-- Every stored pair `matrix[T][U]` comes from two distinct positions of
the filtered sequence lying within `windowSize` of each other. -/
def PairWitness (vt : List Tok) (T U : String) : Prop :=
  ∃ i j, i < vt.length ∧ j < vt.length ∧ i ≠ j ∧
    j ≤ i + windowSize ∧ i ≤ j + windowSize ∧
    termAt vt i = T ∧ termAt vt j = U

theorem pairPresent_iff {m : List (String × List (String × Nat))}
    {T U : String} :
    pairPresent m T U = true ↔
      ∃ v, mget m T = some v ∧ (mget v U).isSome := by
  unfold pairPresent
  cases mget m T <;> simp

theorem pair_origin_coStep (vt : List Tok) (i j : Nat)
    (m2 : List (String × List (String × Nat)))
    (hi : i < vt.length) (hj : j < vt.length)
    (hj1 : i - windowSize ≤ j) (hj2 : j ≤ i + windowSize)
    (H : ∀ T U, pairPresent m2 T U = true → PairWitness vt T U) :
    ∀ T U, pairPresent (coStep vt i m2 j) T U = true → PairWitness vt T U := by
  intro T U hp
  unfold coStep at hp
  by_cases hji : j = i
  · rw [if_pos hji] at hp
    exact H T U hp
  · rw [if_neg hji] at hp
    rw [pairPresent_iff] at hp
    obtain ⟨v, hv, hvU⟩ := hp
    by_cases hT : T = termAt vt i
    · subst hT
      rw [mget_mset_self] at hv
      cases hv
      by_cases hU : U = termAt vt j
      · subst hU
        exact ⟨i, j, hi, hj, fun hh => hji hh.symm, hj2, by omega, rfl, rfl⟩
      · rw [mget_mset_of_ne _ _ _ _ hU] at hvU
        cases hv2 : mget m2 (termAt vt i) with
        | none => rw [hv2] at hvU; simp [mget_nil] at hvU
        | some w =>
          rw [hv2] at hvU
          exact H _ U (pairPresent_iff.mpr ⟨w, hv2, by simpa using hvU⟩)
    · rw [mget_mset_of_ne _ _ _ _ hT] at hv
      exact H T U (pairPresent_iff.mpr ⟨v, hv, hvU⟩)

theorem pair_origin_inner (vt : List Tok) (i : Nat) (hi : i < vt.length) :
    ∀ (l : List Nat) (m2 : List (String × List (String × Nat))),
      (∀ j ∈ l, j < vt.length ∧ i - windowSize ≤ j ∧ j ≤ i + windowSize) →
      (∀ T U, pairPresent m2 T U = true → PairWitness vt T U) →
      ∀ T U, pairPresent (l.foldl (coStep vt i) m2) T U = true →
        PairWitness vt T U := by
  intro l
  induction l with
  | nil => intro m2 _ H; exact H
  | cons a rest ih =>
    intro m2 hbound H
    simp only [List.foldl_cons]
    apply ih
    · intro j hj
      exact hbound j (List.mem_cons_of_mem a hj)
    · obtain ⟨ha1, ha2, ha3⟩ := hbound a (List.mem_cons_self a rest)
      exact pair_origin_coStep vt i a m2 hi ha1 ha2 ha3 H

theorem pair_origin_windowStep (vt : List Tok) (i : Nat)
    (m : List (String × List (String × Nat))) (hi : i < vt.length)
    (H : ∀ T U, pairPresent m T U = true → PairWitness vt T U) :
    ∀ T U, pairPresent (windowStep vt m i) T U = true → PairWitness vt T U := by
  unfold windowStep
  apply pair_origin_inner vt i hi
  · intro j hj
    rw [List.mem_range'_1] at hj
    have h2 : i ≤ vt.length - 1 := by omega
    have hM1 : min (vt.length - 1) (i + windowSize) ≤ vt.length - 1 :=
      min_le_left _ _
    have hM2 : min (vt.length - 1) (i + windowSize) ≤ i + windowSize :=
      min_le_right _ _
    have hM3 : i ≤ min (vt.length - 1) (i + windowSize) :=
      le_min h2 (Nat.le_add_right _ _)
    obtain ⟨hja, hjb⟩ := hj
    refine ⟨?_, ?_, ?_⟩ <;> omega
  · -- the ensure-center step adds no pair
    intro T U hp
    by_cases hc : (mget m (termAt vt i)).isSome
    · rw [if_pos hc] at hp
      exact H T U hp
    · rw [if_neg hc] at hp
      rw [pairPresent_iff] at hp
      obtain ⟨v, hv, hvU⟩ := hp
      by_cases hT : T = termAt vt i
      · subst hT
        rw [mget_mset_self] at hv
        cases hv
        simp [mget_nil] at hvU
      · rw [mget_mset_of_ne _ _ _ _ hT] at hv
        exact H T U (pairPresent_iff.mpr ⟨v, hv, hvU⟩)

theorem pair_origin_fold (vt : List Tok) (l : List Nat)
    (hl : ∀ i ∈ l, i < vt.length)
    (m : List (String × List (String × Nat)))
    (H : ∀ T U, pairPresent m T U = true → PairWitness vt T U) :
    ∀ T U, pairPresent (l.foldl (windowStep vt) m) T U = true →
      PairWitness vt T U := by
  induction l generalizing m with
  | nil => exact H
  | cons a rest ih =>
    simp only [List.foldl_cons]
    exact ih (fun i hi => hl i (List.mem_cons_of_mem a hi)) _
      (pair_origin_windowStep vt a m (hl a (List.mem_cons_self a rest)) H)

/-- Every stored pair of the built matrix arises from two distinct
in-window positions of the filtered term sequence. -/
theorem pair_origin_matrix (text : String) (T U : String)
    (hp : pairPresent (buildCoOccurrenceMatrix text).matrix T U = true) :
    PairWitness (validTermsOf text) T U := by
  unfold buildCoOccurrenceMatrix at hp
  refine pair_origin_fold (validTermsOf text) _ ?_ [] ?_ T U hp
  · intro i hi
    exact List.mem_range.mp hi
  · intro T U hp2
    simp [pairPresent, mget_nil] at hp2

/-! ## Key-presence lemmas (no vocabulary cap) -/

theorem isSome_mget_coStep (vt : List Tok) (i j : Nat)
    (m2 : List (String × List (String × Nat))) (T : String)
    (h : (mget m2 T).isSome) : (mget (coStep vt i m2 j) T).isSome := by
  unfold coStep
  by_cases hji : j = i
  · rwa [if_pos hji]
  · rw [if_neg hji]
    exact isSome_mget_mset _ _ _ _ h

theorem isSome_mget_foldl_coStep (vt : List Tok) (i : Nat) (l : List Nat)
    (m2 : List (String × List (String × Nat))) (T : String)
    (h : (mget m2 T).isSome) :
    (mget (l.foldl (coStep vt i) m2) T).isSome := by
  induction l generalizing m2 with
  | nil => exact h
  | cons a rest ih =>
    simp only [List.foldl_cons]
    exact ih _ (isSome_mget_coStep vt i a m2 T h)

theorem isSome_mget_windowStep (vt : List Tok) (i : Nat)
    (m : List (String × List (String × Nat))) (T : String)
    (h : (mget m T).isSome) : (mget (windowStep vt m i) T).isSome := by
  unfold windowStep
  apply isSome_mget_foldl_coStep
  by_cases hc : (mget m (termAt vt i)).isSome
  · rwa [if_pos hc]
  · rw [if_neg hc]
    exact isSome_mget_mset _ _ _ _ h

theorem isSome_center_windowStep (vt : List Tok) (i : Nat)
    (m : List (String × List (String × Nat))) :
    (mget (windowStep vt m i) (termAt vt i)).isSome := by
  unfold windowStep
  apply isSome_mget_foldl_coStep
  by_cases hc : (mget m (termAt vt i)).isSome
  · rwa [if_pos hc]
  · rw [if_neg hc]
    rw [mget_mset_self]
    rfl

theorem isSome_foldl_windowStep_keep (vt : List Tok) (l : List Nat)
    (m : List (String × List (String × Nat))) (T : String)
    (h : (mget m T).isSome) :
    (mget (l.foldl (windowStep vt) m) T).isSome := by
  induction l generalizing m with
  | nil => exact h
  | cons a rest ih =>
    simp only [List.foldl_cons]
    exact ih _ (isSome_mget_windowStep vt a m T h)

theorem isSome_mget_foldl_windowStep (vt : List Tok) (l : List Nat) (i : Nat)
    (hi : i ∈ l) (m : List (String × List (String × Nat))) :
    (mget (l.foldl (windowStep vt) m) (termAt vt i)).isSome := by
  induction l generalizing m with
  | nil => cases hi
  | cons a rest ih =>
    simp only [List.foldl_cons]
    rcases List.mem_cons.mp hi with h | h
    · subst h
      exact isSome_foldl_windowStep_keep vt rest _ _
        (isSome_center_windowStep vt i m)
    · exact ih h _

/-! ## Claim C6: no vocabulary cap is applied -/

/-- C6: the spec claims the retained vocabulary is capped at
`maxTerms` (10000) by descending frequency when exceeded.  In the code
`CONFIG.maxTerms` is never read: every occurrence of a term passing the
frequency filter makes that term a key of the matrix, however many
distinct terms there are.  This proves no cap exists (with more than
10000 distinct frequency-filtered terms the matrix keeps them all). -/
theorem c6_no_vocabulary_cap (text : String) (tok : Tok)
    (h : tok ∈ validTermsOf text) :
    (mget (buildCoOccurrenceMatrix text).matrix tok.term).isSome := by
  obtain ⟨⟨i, hi⟩, hget⟩ := List.mem_iff_get.mp h
  have hterm : termAt (validTermsOf text) i = tok.term := by
    unfold termAt
    rw [List.get?_eq_get hi, Option.getD_some, hget]
  have := isSome_mget_foldl_windowStep (validTermsOf text)
    (List.range (validTermsOf text).length) i (List.mem_range.mpr hi) []
  rw [hterm] at this
  simpa [buildCoOccurrenceMatrix] using this

/-- Witness for C6 at a concrete input. -/
theorem c6_no_vocabulary_cap_witness :
    (⟨"aa", 0⟩ : Tok) ∈ validTermsOf "aa bb aa bb" ∧
    (mget (buildCoOccurrenceMatrix "aa bb aa bb").matrix "aa").isSome :=
  ⟨by decide, c6_no_vocabulary_cap "aa bb aa bb" ⟨"aa", 0⟩ (by decide)⟩

/-! ## Claim C5: self-counts -/

/-- C5 (counterexample): the claim says the self-count of a term is never
stored.  On the input `"aa bb aa bb"` the code stores
`matrix["aa"]["aa"] = 2`: the window loop only skips the identical
position `i = j`, not other occurrences of the same term. -/
theorem c5_counterexample :
    mget ((mget (buildCoOccurrenceMatrix "aa bb aa bb").matrix "aa").getD []) "aa"
      = some 2 := by decide

/-- C5 (amended): no co-occurrence is ever counted between a term
occurrence and itself at the same position, but `matrix[T][T]` is stored
when `T` occurs at two distinct positions within the window: every
stored self-count arises from two distinct in-window positions both
bearing `T`. -/
theorem c5_selfCount_only_from_distinct_positions (text : String) (T : String)
    (hp : pairPresent (buildCoOccurrenceMatrix text).matrix T T = true) :
    ∃ i j, i < (validTermsOf text).length ∧ j < (validTermsOf text).length ∧
      i ≠ j ∧ j ≤ i + windowSize ∧ i ≤ j + windowSize ∧
      termAt (validTermsOf text) i = T ∧ termAt (validTermsOf text) j = T :=
  pair_origin_matrix text T T hp

/-- Witness for the amended C5 at a concrete input. -/
theorem c5_selfCount_witness :
    pairPresent (buildCoOccurrenceMatrix "aa bb aa bb").matrix "aa" "aa" = true ∧
    (∃ i j, i < (validTermsOf "aa bb aa bb").length ∧
      j < (validTermsOf "aa bb aa bb").length ∧
      i ≠ j ∧ j ≤ i + windowSize ∧ i ≤ j + windowSize ∧
      termAt (validTermsOf "aa bb aa bb") i = "aa" ∧
      termAt (validTermsOf "aa bb aa bb") j = "aa") :=
  ⟨by decide, c5_selfCount_only_from_distinct_positions "aa bb aa bb" "aa" (by decide)⟩

/-! ## Claim C1: packing size accounting versus the formatter -/

/-- The concrete failing input for C1: one topic with two tiny chunks. -/
def c1Input : List TopicResult :=
  [⟨1, "q", [⟨1, 0, "x", 100⟩, ⟨1, 1, "y", 100⟩]⟩]

/-- The size limit at which the C1 input fits by the accounting of the packer but overflows as rendered. -/
def c1Limit : Nat := 326

/-- The super chunks the packer emits for the C1 input. -/
def c1Supers : List SuperChunk := createSuperChunksWithTopics c1Input c1Limit ["q"]

/-- The text the formatter renders for the single emitted super chunk. -/
def c1Rendered : String :=
  formatSuperChunkContent (fun _ => "d") (c1Supers.headD ⟨[], 0, true⟩) 1 1
    (some ["q"])

/-- C1 (code bug): the accounting of the packer omits the super-chunk marker
line, the `[[document: …]]` lines, the super-chunk footer and the
package footer, and counts a differently formatted topic header
(`\n[[topic N: Q]]\n\n`) than the formatter emits (`[[topic: Q]]\n\n`).
At this input the single emitted super chunk holds two chunks whose own
envelopes (30 characters each) are far below the limit, the accounted
`totalChars` equals the 326-character limit, yet the rendered text has
401 characters — the packing size bound and the accounting-equality
claim both fail. -/
theorem c1_size_bound_violated :
    c1Supers.length = 1 ∧
    (c1Supers.headD ⟨[], 0, true⟩).totalChars = c1Limit ∧
    ((c1Supers.headD ⟨[], 0, true⟩).topics.map (fun s => s.chunks.length)).sum = 2 ∧
    (chunkEnvelope ⟨1, 0, "x", 100⟩).length ≤ c1Limit ∧
    (chunkEnvelope ⟨1, 1, "y", 100⟩).length ≤ c1Limit ∧
    c1Limit < c1Rendered.length := by decide

/-! ## Claim C8: expansion with a missing index -/

/-- The original terms of the query as the normal expansion path computes
them (`expandQuery`, vectors present): unigrams and phrases,
deduplicated. -/
def originalQueryTerms (queryText : String) : List String :=
  jsDedup ((tokenize queryText ++ extractPhrases (tokenize queryText)).map (·.term))

/-- C8 (counterexample): with no stored index, `expandQuery` returns
concepts for the unigram tokens only — for the query `"alpha beta"` the
original term `"alpha beta"` (the bigram, part of the original terms in
the indexed path and per the glossary of the spec) is not contributed. -/
theorem c8_counterexample :
    (expandQuery none "alpha beta").map Concept.originalTerm = ["alpha", "beta"] ∧
    originalQueryTerms "alpha beta" = ["alpha", "beta", "alpha beta"] ∧
    ("alpha beta" : String) ∉ (expandQuery none "alpha beta").map Concept.originalTerm := by
  refine ⟨by decide, by decide, by decide⟩

/-- Auxiliary invariant: merging metadata of missing-index concepts
(each of the shape `{t, [t], [1.0]}`) only ever stores the metadata
`{similarity := 1, isOriginal := true}`. -/
theorem mergeMeta_missing_aux (l : List Concept)
    (hshape : ∀ c ∈ l, c.expandedTerms = [c.originalTerm] ∧ c.similarities = [1.0])
    (acc : List String × List (String × TermMeta))
    (hacc : ∀ t m, mget acc.2 t = some m → m.similarity = 1 ∧ m.isOriginal = true) :
    ∀ t m,
      mget (l.foldl
        (fun acc exp =>
          (exp.expandedTerms.enum).foldl
            (fun acc2 ti =>
              let term := ti.2
              let sim := (exp.similarities.get? ti.1).getD 0
              let meta : TermMeta :=
                { similarity := if sim = 0 then 1.0 else sim
                  isOriginal := exp.originalTerm = term }
              ( acc2.1 ++ [term]
              , if (mget acc2.2 term).isSome then acc2.2 else mset acc2.2 term meta ))
            acc) acc).2 t = some m →
      m.similarity = 1 ∧ m.isOriginal = true := by
  induction l generalizing acc with
  | nil => exact hacc
  | cons c rest ih =>
    obtain ⟨he, hs⟩ := hshape c (List.mem_cons_self c rest)
    simp only [List.foldl_cons]
    apply ih
    · intro c2 hc2
      exact hshape c2 (List.mem_cons_of_mem c hc2)
    · rw [he, hs]
      intro t m hm
      simp only [List.enum, List.enumFrom, List.foldl_cons, List.foldl_nil] at hm
      by_cases hpres : (mget acc.2 c.originalTerm).isSome = true
      · rw [if_pos hpres] at hm
        exact hacc t m hm
      · rw [if_neg hpres] at hm
        by_cases ht : t = c.originalTerm
        · subst ht
          rw [mget_mset_self] at hm
          cases hm
          refine ⟨?_, by simp⟩
          show (if (([(1.0 : ℝ)].get? 0).getD 0 = 0) then (1.0 : ℝ)
            else ([(1.0 : ℝ)].get? 0).getD 0) = 1
          norm_num
        · rw [mget_mset_of_ne _ _ _ _ ht] at hm
          exact hacc t m hm

/-- C8 (amended): a missing index degrades gracefully, but contributes
exactly the unigram tokens of the question (phrase n-grams are omitted
and duplicates are kept), each expanded only to itself with similarity
`1.0`; every metadata entry the topic-concept assembly then builds is
`{similarity := 1.0, isOriginal := true}`. -/
theorem c8_missing_index_degrades (queryText : String) :
    ((expandQuery none queryText).map Concept.originalTerm
        = (tokenize queryText).map Tok.term) ∧
    (∀ c ∈ expandQuery none queryText,
        c.expandedTerms = [c.originalTerm] ∧ c.similarities = [1.0]) ∧
    (∀ t m,
        mget (buildTopicConcept (expandQuery none queryText)).termMetadata t = some m →
        m.similarity = 1 ∧ m.isOriginal = true) := by
  refine ⟨?_, ?_, ?_⟩
  · simp [expandQuery, List.map_map]
  · intro c hc
    simp only [expandQuery, List.mem_map] at hc
    obtain ⟨tok, _, rfl⟩ := hc
    exact ⟨rfl, rfl⟩
  · intro t m hm
    have hshape : ∀ c ∈ expandQuery none queryText,
        c.expandedTerms = [c.originalTerm] ∧ c.similarities = [1.0] := by
      intro c hc
      simp only [expandQuery, List.mem_map] at hc
      obtain ⟨tok, _, rfl⟩ := hc
      exact ⟨rfl, rfl⟩
    refine mergeMeta_missing_aux (expandQuery none queryText) hshape ([], [])
      ?_ t m ?_
    · intro t2 m2 hm2
      simp [mget_nil] at hm2
    · simpa [buildTopicConcept, mergeConceptMeta] using hm

/-- Witness for C8 at a concrete query. -/
theorem c8_missing_index_witness :
    (expandQuery none "alpha beta").map Concept.originalTerm
      = (tokenize "alpha beta").map Tok.term :=
  (c8_missing_index_degrades "alpha beta").1

/-! ## Claim C4: top-K similar terms -/

instance : IsTotal SimEntry simGE :=
  ⟨fun a b => le_total b.similarity a.similarity⟩

instance : IsTrans SimEntry simGE :=
  ⟨fun _ _ _ hab hbc => le_trans hbc hab⟩

theorem collectSims_nil (qt : String) (qv : SparseVec) :
    collectSims qt qv [] = [] := rfl

theorem collectSims_cons (qt : String) (qv : SparseVec) (t : String)
    (tv : SparseVec) (rest : List (String × SparseVec)) :
    collectSims qt qv ((t, tv) :: rest) =
      if t = qt then collectSims qt qv rest
      else if (minSimilarity : ℝ) ≤ cosineSimilarity qv tv then
        ⟨t, cosineSimilarity qv tv⟩ :: collectSims qt qv rest
      else collectSims qt qv rest := rfl

theorem collectSims_mem (qt : String) (qv : SparseVec)
    (l : List (String × SparseVec)) (e : SimEntry)
    (he : e ∈ collectSims qt qv l) :
    e.term ≠ qt ∧ (minSimilarity : ℝ) ≤ e.similarity := by
  induction l with
  | nil => cases he
  | cons p rest ih =>
    obtain ⟨t, tv⟩ := p
    unfold collectSims at he
    by_cases hterm : t = qt
    · rw [if_pos hterm] at he
      exact ih he
    · rw [if_neg hterm] at he
      by_cases hsim : (minSimilarity : ℝ) ≤ cosineSimilarity qv tv
      · rw [if_pos hsim] at he
        rcases List.mem_cons.mp he with h | h
        · subst h
          exact ⟨hterm, hsim⟩
        · exact ih h
      · rw [if_neg hsim] at he
        exact ih he

/-- C4 (amended): `findSimilarTerms(T, index, K)` returns at most `K`
entries; every returned entry has a term different from the lowercased
query term and similarity at least `minSimilarity`; and the list is
sorted by descending similarity.  (Ties are NOT broken
lexicographically: the sort is stable, so equal similarities keep the
matrix insertion order — see the counterexample.) -/
theorem c4_top_k_properties (queryTerm : String) (data : CoOccurrenceData)
    (K : Nat) :
    (findSimilarTerms queryTerm data K).length ≤ K ∧
    (∀ e ∈ findSimilarTerms queryTerm data K,
        e.term ≠ lowerString queryTerm ∧ (minSimilarity : ℝ) ≤ e.similarity) ∧
    (findSimilarTerms queryTerm data K).Sorted simGE := by
  unfold findSimilarTerms
  cases hmv : mget data.matrix (lowerString queryTerm) with
  | none =>
    simp only [hmv]
    refine ⟨by simp, ?_, by simp⟩
    intro e he
    simp at he
  | some qv =>
    simp only [hmv]
    refine ⟨List.length_take_le _ _, ?_, ?_⟩
    · intro e he
      have h1 : e ∈ List.insertionSort simGE
          (collectSims (lowerString queryTerm) qv data.matrix) :=
        List.mem_of_mem_take he
      have h2 : e ∈ collectSims (lowerString queryTerm) qv data.matrix :=
        (List.perm_insertionSort simGE _).mem_iff.mp h1
      exact collectSims_mem _ _ _ _ h2
    · exact (List.sorted_insertionSort simGE _).sublist (List.take_sublist _ _)

/-- The vector shared by all three matrix rows of the C4 counterexample. -/
def c4Vec : SparseVec := [("x", 1)]

/-- A co-occurrence index whose rows `"zz"` and `"aa"` (in that
insertion order) are identical, hence equally similar to the query row. -/
def c4Data : CoOccurrenceData :=
  ⟨[("qq", c4Vec), ("zz", c4Vec), ("aa", c4Vec)], [], 0⟩

theorem cosineSimilarity_c4Vec : cosineSimilarity c4Vec c4Vec = 1 := by
  have hdot : dotProduct c4Vec c4Vec = 1 := by decide
  have hsq : sumSq c4Vec = 1 := by decide
  unfold cosineSimilarity
  rw [if_neg (by decide : ¬(c4Vec.length = 0 ∨ c4Vec.length = 0))]
  simp only [hdot, hsq, Nat.cast_one, Real.sqrt_one]
  norm_num

/-- C4 (counterexample): the claim says equal-similarity ties appear in
lexicographic term order.  In this index the rows `"zz"` and `"aa"` have
the same similarity `1` to the query row, yet `"zz"` is returned before
`"aa"` (their matrix insertion order), although `"aa" < "zz"`. -/
theorem c4_counterexample :
    findSimilarTerms "qq" c4Data 5 = [⟨"zz", 1⟩, ⟨"aa", 1⟩] ∧
    ("aa" : String).data < ("zz" : String).data := by
  constructor
  · have hlow : lowerString "qq" = "qq" := by decide
    unfold findSimilarTerms
    rw [hlow]
    have hmv : mget c4Data.matrix "qq" = some c4Vec := by decide
    simp only [hmv]
    have hmat : c4Data.matrix = [("qq", c4Vec), ("zz", c4Vec), ("aa", c4Vec)] := rfl
    have hcoll : collectSims "qq" c4Vec c4Data.matrix
        = [⟨"zz", 1⟩, ⟨"aa", 1⟩] := by
      rw [hmat, collectSims_cons, if_pos rfl, collectSims_cons,
        if_neg (by decide : ¬("zz" = "qq")), cosineSimilarity_c4Vec,
        if_pos (by norm_num [minSimilarity] : ((minSimilarity : ℚ) : ℝ) ≤ 1),
        collectSims_cons, if_neg (by decide : ¬("aa" = "qq")),
        cosineSimilarity_c4Vec,
        if_pos (by norm_num [minSimilarity] : ((minSimilarity : ℚ) : ℝ) ≤ 1)]
      rfl
    rw [hcoll]
    have hsort : List.insertionSort simGE [(⟨"zz", 1⟩ : SimEntry), ⟨"aa", 1⟩]
        = [⟨"zz", 1⟩, ⟨"aa", 1⟩] := by
      simp [List.insertionSort, List.orderedInsert, simGE]
    rw [hsort]
    rfl
  · decide

/-! ## Claims C9 and C10: cosine bounds and commutativity -/

/-- The count a sparse vector stores for a term (0 when absent). -/
def nget (v : SparseVec) (t : String) : Nat := (mget v t).getD 0

/-- The finite set of keys of a sparse vector. -/
def keyset (v : SparseVec) : Finset String := (v.map Prod.fst).toFinset

theorem mem_keyset_iff (v : SparseVec) (t : String) :
    t ∈ keyset v ↔ (mget v t).isSome := by
  rw [keyset, List.mem_toFinset, List.mem_map]
  constructor
  · rintro ⟨p, hp, rfl⟩
    have hfs : (v.find? (fun q => decide (q.1 = p.1))).isSome :=
      List.find?_isSome.mpr ⟨p, hp, by simp⟩
    obtain ⟨q, hq⟩ := Option.isSome_iff_exists.mp hfs
    unfold mget
    rw [hq]
    rfl
  · intro hs
    unfold mget at hs
    cases hfind : v.find? (fun q => decide (q.1 = t)) with
    | none =>
      rw [hfind] at hs
      simp at hs
    | some q =>
      have hq := List.find?_some hfind
      have hqm := List.mem_of_find?_eq_some hfind
      exact ⟨q, hqm, by simpa using hq⟩

theorem mget_of_mem_nodup (v : SparseVec) (p : String × Nat)
    (h : (v.map Prod.fst).Nodup) (hp : p ∈ v) : mget v p.1 = some p.2 := by
  induction v with
  | nil => cases hp
  | cons q rest ih =>
    rw [List.map_cons] at h
    rcases List.mem_cons.mp hp with rfl | hp2
    · rw [mget_cons, if_pos rfl]
    · have hq : q.1 ≠ p.1 := by
        intro he
        exact (List.nodup_cons.mp h).1 (he ▸ List.mem_map_of_mem Prod.fst hp2)
      rw [mget_cons, if_neg hq]
      exact ih (List.nodup_cons.mp h).2 hp2

theorem dotProduct_foldl_aux (v2 : SparseVec) (l : List (String × Nat)) :
    ∀ a : Nat,
      l.foldl (fun acc p =>
          match mget v2 p.1 with
          | some c2 => acc + p.2 * c2
          | none => acc) a
        = a + (l.map (fun p =>
            match mget v2 p.1 with
            | some c2 => p.2 * c2
            | none => 0)).sum := by
  induction l with
  | nil => intro a; simp
  | cons p rest ih =>
    intro a
    simp only [List.foldl_cons, List.map_cons, List.sum_cons]
    cases hm : mget v2 p.1 with
    | none => rw [ih]; simp
    | some c2 => rw [ih, Nat.add_assoc]

theorem dotProduct_eq_sum (v1 v2 : SparseVec) :
    dotProduct v1 v2 = (v1.map (fun p =>
        match mget v2 p.1 with
        | some c2 => p.2 * c2
        | none => 0)).sum := by
  unfold dotProduct
  rw [dotProduct_foldl_aux, Nat.zero_add]

theorem sumSq_foldl_aux (l : List (String × Nat)) :
    ∀ a : Nat, l.foldl (fun acc p => acc + p.2 * p.2) a
      = a + (l.map (fun p => p.2 * p.2)).sum := by
  induction l with
  | nil => intro a; simp
  | cons p rest ih =>
    intro a
    simp only [List.foldl_cons, List.map_cons, List.sum_cons]
    rw [ih, Nat.add_assoc]

theorem sumSq_eq_sum (v : SparseVec) :
    sumSq v = (v.map (fun p => p.2 * p.2)).sum := by
  unfold sumSq
  rw [sumSq_foldl_aux, Nat.zero_add]

theorem sumSq_eq_finset (v : SparseVec) (h : (v.map Prod.fst).Nodup) :
    sumSq v = ∑ t in keyset v, nget v t * nget v t := by
  rw [sumSq_eq_sum, keyset, List.sum_toFinset _ h, List.map_map]
  refine congrArg List.sum (List.map_congr_left ?_).symm
  intro p hp
  have hv : nget v p.1 = p.2 := by
    rw [nget, mget_of_mem_nodup v p h hp]
    rfl
  simp [Function.comp, hv]

theorem dotProduct_eq_finset (v1 v2 : SparseVec)
    (h1 : (v1.map Prod.fst).Nodup) :
    dotProduct v1 v2 = ∑ t in keyset v1 ∩ keyset v2, nget v1 t * nget v2 t := by
  classical
  rw [dotProduct_eq_sum, ← Finset.filter_mem_eq_inter, Finset.sum_filter]
  rw [keyset, List.sum_toFinset _ h1, List.map_map]
  refine congrArg List.sum (List.map_congr_left ?_)
  intro p hp
  have hv1 : nget v1 p.1 = p.2 := by
    rw [nget, mget_of_mem_nodup v1 p h1 hp]
    rfl
  show (match mget v2 p.1 with
    | some c2 => p.2 * c2
    | none => 0) =
    if p.1 ∈ keyset v2 then nget v1 p.1 * nget v2 p.1 else 0
  cases hm : mget v2 p.1 with
  | none =>
    have hnm : ¬ p.1 ∈ keyset v2 := by
      rw [mem_keyset_iff, hm]
      simp
    simp [hnm]
  | some c2 =>
    have hmem : p.1 ∈ keyset v2 := by
      rw [mem_keyset_iff, hm]
      rfl
    have hv2 : nget v2 p.1 = c2 := by
      rw [nget, hm]
      rfl
    simp [hmem, hv1, hv2]

/-- C10: cosine similarity is commutative (on well-formed sparse vectors
without duplicate keys): the guards are symmetric, the dot product sums
the same products over the common keys, and the magnitudes swap. -/
theorem c10_cosineSimilarity_comm (v1 v2 : SparseVec)
    (h1 : (v1.map Prod.fst).Nodup) (h2 : (v2.map Prod.fst).Nodup) :
    cosineSimilarity v1 v2 = cosineSimilarity v2 v1 := by
  have hdot : dotProduct v1 v2 = dotProduct v2 v1 := by
    rw [dotProduct_eq_finset v1 v2 h1, dotProduct_eq_finset v2 v1 h2,
      Finset.inter_comm]
    exact Finset.sum_congr rfl (fun t _ => Nat.mul_comm _ _)
  simp only [cosineSimilarity]
  by_cases hl : v1.length = 0 ∨ v2.length = 0
  · rw [if_pos hl,
      if_pos (show v2.length = 0 ∨ v1.length = 0 from hl.symm)]
  · rw [if_neg hl,
      if_neg (show ¬(v2.length = 0 ∨ v1.length = 0) from fun hh => hl hh.symm)]
    by_cases hm : Real.sqrt (sumSq v1) = 0 ∨ Real.sqrt (sumSq v2) = 0
    · rw [if_pos hm,
        if_pos (show Real.sqrt (sumSq v2) = 0 ∨ Real.sqrt (sumSq v1) = 0 from
          hm.symm)]
    · rw [if_neg hm,
        if_neg (show ¬(Real.sqrt (sumSq v2) = 0 ∨ Real.sqrt (sumSq v1) = 0) from
          fun hh => hm hh.symm)]
      rw [hdot, mul_comm]

/-- Witness for C10 at concrete vectors. -/
theorem c10_cosineSimilarity_comm_witness :
    cosineSimilarity [("a", 1), ("b", 2)] [("b", 3)]
      = cosineSimilarity [("b", 3)] [("a", 1), ("b", 2)] :=
  c10_cosineSimilarity_comm _ _ (by decide) (by decide)

/-- C9: on well-formed sparse count vectors the cosine similarity lies
in `[0, 1]` (the counts are natural numbers, so the dot product is
non-negative, and Cauchy–Schwarz bounds it by the product of the
magnitudes), and it is `0` when either vector is empty or has zero
magnitude. -/
theorem c9_cosineSimilarity_bounds (v1 v2 : SparseVec)
    (h1 : (v1.map Prod.fst).Nodup) (h2 : (v2.map Prod.fst).Nodup) :
    cosineSimilarity v1 v2 ∈ Set.Icc (0 : ℝ) 1 ∧
    ((v1 = [] ∨ v2 = []) → cosineSimilarity v1 v2 = 0) ∧
    ((sumSq v1 = 0 ∨ sumSq v2 = 0) → cosineSimilarity v1 v2 = 0) := by
  refine ⟨?_, ?_, ?_⟩
  · simp only [cosineSimilarity]
    by_cases hl : v1.length = 0 ∨ v2.length = 0
    · rw [if_pos hl]
      exact ⟨le_refl 0, zero_le_one⟩
    · rw [if_neg hl]
      by_cases hm : Real.sqrt (sumSq v1) = 0 ∨ Real.sqrt (sumSq v2) = 0
      · rw [if_pos hm]
        exact ⟨le_refl 0, zero_le_one⟩
      · rw [if_neg hm]
        push_neg at hm
        obtain ⟨hm1, hm2⟩ := hm
        have hpos1 : 0 < Real.sqrt (sumSq v1) :=
          lt_of_le_of_ne (Real.sqrt_nonneg _) (Ne.symm hm1)
        have hpos2 : 0 < Real.sqrt (sumSq v2) :=
          lt_of_le_of_ne (Real.sqrt_nonneg _) (Ne.symm hm2)
        have hdenom : 0 < Real.sqrt (sumSq v1) * Real.sqrt (sumSq v2) :=
          mul_pos hpos1 hpos2
        constructor
        · exact div_nonneg (Nat.cast_nonneg _) hdenom.le
        · rw [div_le_one hdenom]
          have hsq1 : ∑ t in keyset v1 ∩ keyset v2, ((nget v1 t : ℝ)) ^ 2
              ≤ ((sumSq v1 : ℕ) : ℝ) := by
            rw [sumSq_eq_finset v1 h1]
            push_cast
            calc ∑ t in keyset v1 ∩ keyset v2, ((nget v1 t : ℝ)) ^ 2
                ≤ ∑ t in keyset v1, ((nget v1 t : ℝ)) ^ 2 :=
                  Finset.sum_le_sum_of_subset_of_nonneg
                    (Finset.inter_subset_left)
                    (fun t _ _ => sq_nonneg _)
              _ = ∑ t in keyset v1, (nget v1 t : ℝ) * (nget v1 t : ℝ) :=
                  Finset.sum_congr rfl (fun t _ => sq (nget v1 t : ℝ) ▸ by ring)
          have hsq2 : ∑ t in keyset v1 ∩ keyset v2, ((nget v2 t : ℝ)) ^ 2
              ≤ ((sumSq v2 : ℕ) : ℝ) := by
            rw [sumSq_eq_finset v2 h2]
            push_cast
            calc ∑ t in keyset v1 ∩ keyset v2, ((nget v2 t : ℝ)) ^ 2
                ≤ ∑ t in keyset v2, ((nget v2 t : ℝ)) ^ 2 :=
                  Finset.sum_le_sum_of_subset_of_nonneg
                    (Finset.inter_subset_right)
                    (fun t _ _ => sq_nonneg _)
              _ = ∑ t in keyset v2, (nget v2 t : ℝ) * (nget v2 t : ℝ) :=
                  Finset.sum_congr rfl (fun t _ => by ring)
          calc ((dotProduct v1 v2 : ℕ) : ℝ)
              = ∑ t in keyset v1 ∩ keyset v2, (nget v1 t : ℝ) * (nget v2 t : ℝ) := by
                rw [dotProduct_eq_finset v1 v2 h1]
                push_cast
                rfl
            _ ≤ Real.sqrt (∑ t in keyset v1 ∩ keyset v2, ((nget v1 t : ℝ)) ^ 2)
                  * Real.sqrt (∑ t in keyset v1 ∩ keyset v2, ((nget v2 t : ℝ)) ^ 2) :=
                Real.sum_mul_le_sqrt_mul_sqrt _ _ _
            _ ≤ Real.sqrt (sumSq v1) * Real.sqrt (sumSq v2) :=
                mul_le_mul (Real.sqrt_le_sqrt hsq1) (Real.sqrt_le_sqrt hsq2)
                  (Real.sqrt_nonneg _) (Real.sqrt_nonneg _)
  · intro h
    simp only [cosineSimilarity]
    have hl : v1.length = 0 ∨ v2.length = 0 := by
      rcases h with h | h <;> simp [h]
    rw [if_pos hl]
  · intro h
    simp only [cosineSimilarity]
    by_cases hl : v1.length = 0 ∨ v2.length = 0
    · rw [if_pos hl]
    · rw [if_neg hl, if_pos ?_]
      rcases h with h | h
      · left
        rw [h]
        simp
      · right
        rw [h]
        simp

/-- Witness for C9 at concrete vectors. -/
theorem c9_cosineSimilarity_bounds_witness :
    cosineSimilarity [("a", 2)] [("a", 3)] ∈ Set.Icc (0 : ℝ) 1 :=
  (c9_cosineSimilarity_bounds [("a", 2)] [("a", 3)] (by decide) (by decide)).1

/-! ## Claim C2: the hybrid scoring formula

The following `spec…` definitions transcribe the formula of the claim (with
its literal default weights 100, 30, 0.7, 0.5, 50, 200); the C2 theorem
proves `scoreChunk` computes exactly these values. -/

/-- The metadata the scorer reads for a term (the spec assumes the entry
exists; the code default `{similarity: 0.5, isOriginal: false}` only
matters when it does not — the C2 theorem assumes presence). -/
noncomputable def specMeta (concept : TopicConcept) (t : String) : TermMeta :=
  (mget concept.termMetadata t).getD ⟨1 / 2, false⟩

/-- Spec formula: the matched terms of a term list. -/
def specMatchedOf (content : List Char) (terms : List String) : List String :=
  terms.filter (fun t => termMatched content t)

/-- Spec formula: each matched original term adds 100. -/
noncomputable def specOrigOf (content : List Char) (concept : TopicConcept)
    (terms : List String) : ℝ :=
  100 * (((specMatchedOf content terms).filter
    (fun t => (specMeta concept t).isOriginal)).length : ℝ)

/-- Spec formula: each matched non-original term adds `30·s` when its
similarity `s` is at least 0.7, else `30·s·0.5`. -/
noncomputable def specSemOf (content : List Char) (concept : TopicConcept)
    (terms : List String) : ℝ :=
  (((specMatchedOf content terms).filter
      (fun t => !(specMeta concept t).isOriginal)).map
    (fun t =>
      if (7 / 10 : ℝ) ≤ (specMeta concept t).similarity then
        30 * (specMeta concept t).similarity
      else 30 * (specMeta concept t).similarity * (1 / 2))).sum

/-- Spec formula: with at least 2 distinct matched terms, enumerate all
occurrence offsets of the matched terms, sort ascending, take the
minimum adjacent gap `d`; award `50·(1 − d/200)` if `d ≤ 200`, else 0. -/
noncomputable def specProxFormula (content : List Char) (matched : List String) : ℝ :=
  let offsets : List Nat := (matched.map
    (fun t => occurrencesOf content ((lowerString t).toList))).flatten
  let sorted : List Nat := List.insertionSort (· ≤ ·) offsets
  let gaps : List Nat := List.zipWith (fun a b => b - a) sorted sorted.tail
  match gaps.min? with
  | none => 0
  | some d => if d ≤ 200 then 50 * (1 - (d : ℝ) / 200) else 0

/-- Spec formula: the proximity component (0 with fewer than 2 distinct
matched terms). -/
noncomputable def specProxOf (content : List Char) (terms : List String) : ℝ :=
  if 2 ≤ ((specMatchedOf content terms).dedup).length then
    specProxFormula content (specMatchedOf content terms)
  else 0

theorem specMeta_eq (concept : TopicConcept) (t : String) :
    (mget concept.termMetadata t).getD ⟨1 / 2, false⟩ = specMeta concept t := rfl

theorem scoreStep_foldl (content : List Char) (concept : TopicConcept) :
    ∀ (terms : List String),
      (∀ t ∈ terms,
        ((specMeta concept t).isOriginal = true ↔ t ∈ concept.originalTerms)) →
      ∀ acc : ScoreAccum,
      terms.foldl (scoreStep content concept) acc =
        ⟨acc.originalTermScore + specOrigOf content concept terms,
         acc.semanticScore + specSemOf content concept terms,
         acc.matchedTerms ++ specMatchedOf content terms,
         acc.matchedOriginalTerms ++
           (specMatchedOf content terms).filter
             (fun t => (specMeta concept t).isOriginal)⟩ := by
  intro terms
  induction terms with
  | nil =>
    intro _ acc
    simp [specOrigOf, specSemOf, specMatchedOf]
  | cons t rest ih =>
    intro hIff acc
    have hIffRest : ∀ u ∈ rest,
        ((specMeta concept u).isOriginal = true ↔ u ∈ concept.originalTerms) :=
      fun u hu => hIff u (List.mem_cons_of_mem t hu)
    have hIffT := hIff t (List.mem_cons_self t rest)
    simp only [List.foldl_cons]
    rw [ih hIffRest]
    cases hmatch : termMatched content t with
    | false =>
      have hstep : scoreStep content concept acc t = acc := by
        simp [scoreStep, hmatch]
      have hfil : specMatchedOf content (t :: rest)
          = specMatchedOf content rest := by
        simp [specMatchedOf, List.filter_cons, hmatch]
      have hO : specOrigOf content concept (t :: rest)
          = specOrigOf content concept rest := by
        simp [specOrigOf, hfil]
      have hS : specSemOf content concept (t :: rest)
          = specSemOf content concept rest := by
        simp [specSemOf, hfil]
      have hF : (specMatchedOf content (t :: rest)).filter
            (fun u => (specMeta concept u).isOriginal)
          = (specMatchedOf content rest).filter
            (fun u => (specMeta concept u).isOriginal) := by
        simp [hfil]
      rw [hstep, hO, hS, hF, hfil]
    | true =>
      have hfil : specMatchedOf content (t :: rest)
          = t :: specMatchedOf content rest := by
        simp [specMatchedOf, List.filter_cons, hmatch]
      by_cases horig : (specMeta concept t).isOriginal = true
      · have hstep : scoreStep content concept acc t =
            ⟨acc.originalTermScore + originalTermWeight, acc.semanticScore,
             acc.matchedTerms ++ [t], acc.matchedOriginalTerms ++ [t]⟩ := by
          simp only [scoreStep, hmatch, if_true, specMeta_eq, horig,
            Bool.true_or]
        have hO : specOrigOf content concept (t :: rest)
            = 100 + specOrigOf content concept rest := by
          simp only [specOrigOf, hfil, List.filter_cons, horig, if_true,
            List.length_cons]
          push_cast
          ring
        have hS : specSemOf content concept (t :: rest)
            = specSemOf content concept rest := by
          simp [specSemOf, hfil, List.filter_cons, horig]
        have hF : (specMatchedOf content (t :: rest)).filter
              (fun u => (specMeta concept u).isOriginal)
            = t :: (specMatchedOf content rest).filter
              (fun u => (specMeta concept u).isOriginal) := by
          simp [hfil, List.filter_cons, horig]
        rw [hstep, hO, hS, hF, hfil]
        dsimp only
        congr 1
        · unfold originalTermWeight
          ring
        all_goals simp
      · have hmem : ¬ t ∈ concept.originalTerms := fun hmem =>
          horig (hIffT.mpr hmem)
        have hnorig : (specMeta concept t).isOriginal = false :=
          Bool.eq_false_iff.mpr (fun hh => horig hh)
        have hO : specOrigOf content concept (t :: rest)
            = specOrigOf content concept rest := by
          simp [specOrigOf, hfil, List.filter_cons, hnorig]
        have hF : (specMatchedOf content (t :: rest)).filter
              (fun u => (specMeta concept u).isOriginal)
            = (specMatchedOf content rest).filter
              (fun u => (specMeta concept u).isOriginal) := by
          simp [hfil, List.filter_cons, hnorig]
        have hS : specSemOf content concept (t :: rest)
            = (if (7 / 10 : ℝ) ≤ (specMeta concept t).similarity then
                30 * (specMeta concept t).similarity
              else 30 * (specMeta concept t).similarity * (1 / 2))
              + specSemOf content concept rest := by
          simp [specSemOf, hfil, List.filter_cons, hnorig]
        by_cases hsim : (7 / 10 : ℝ) ≤ (specMeta concept t).similarity
        · have hstep : scoreStep content concept acc t =
              ⟨acc.originalTermScore,
               acc.semanticScore + semanticWeight * (specMeta concept t).similarity,
               acc.matchedTerms ++ [t], acc.matchedOriginalTerms⟩ := by
            simp only [scoreStep, hmatch, if_true, specMeta_eq, hnorig,
              Bool.false_or]
            rw [if_neg (by simpa using hmem),
              if_pos (show highSimilarityThreshold ≤ (specMeta concept t).similarity
                from hsim)]
          rw [hstep, hO, hS, hF, hfil, if_pos hsim]
          dsimp only
          congr 1
          · unfold semanticWeight
            ring
          all_goals simp
        · have hstep : scoreStep content concept acc t =
              ⟨acc.originalTermScore,
               acc.semanticScore +
                 semanticWeight * (specMeta concept t).similarity * (1 / 2),
               acc.matchedTerms ++ [t], acc.matchedOriginalTerms⟩ := by
            simp only [scoreStep, hmatch, if_true, specMeta_eq, hnorig,
              Bool.false_or]
            rw [if_neg (by simpa using hmem),
              if_neg (show ¬ highSimilarityThreshold ≤ (specMeta concept t).similarity
                from hsim)]
          rw [hstep, hO, hS, hF, hfil, if_neg hsim]
          dsimp only
          congr 1
          · unfold semanticWeight
            ring
          all_goals simp

theorem positions_foldl_eq (content : List Char) :
    ∀ (l : List String) (init : List Nat),
      l.foldl (fun acc term =>
          acc ++ occurrencesOf content ((lowerString term).toList)) init
        = init ++ (l.map
            (fun t => occurrencesOf content ((lowerString t).toList))).flatten := by
  intro l
  induction l with
  | nil => intro init; simp
  | cons t rest ih =>
    intro init
    simp only [List.foldl_cons, List.map_cons, List.flatten_cons]
    rw [ih, List.append_assoc]

theorem calculateProximityScore_eq_formula (content : List Char)
    (matched : List String) :
    calculateProximityScore content matched = specProxFormula content matched := by
  unfold calculateProximityScore specProxFormula
  rw [positions_foldl_eq content matched [], List.nil_append]
  dsimp only
  by_cases hlen : (matched.map
      (fun t => occurrencesOf content ((lowerString t).toList))).flatten.length < 2
  · rw [if_pos hlen]
    have hslen : (List.insertionSort (α := Nat) (· ≤ ·) (matched.map
        (fun t => occurrencesOf content ((lowerString t).toList))).flatten).length < 2 := by
      rwa [List.length_insertionSort]
    generalize hgen : List.insertionSort (α := Nat) (· ≤ ·) (matched.map
        (fun t => occurrencesOf content ((lowerString t).toList))).flatten = sorted at *
    have hg : List.zipWith (fun a b => b - a) sorted sorted.tail = [] := by
      match sorted, hslen with
      | [], _ => rfl
      | [x], _ => rfl
    rw [hg]
    rfl
  · rw [if_neg hlen]
    generalize List.zipWith (fun a b => b - a)
        (List.insertionSort (α := Nat) (· ≤ ·) (matched.map
          (fun t => occurrencesOf content ((lowerString t).toList))).flatten)
        (List.insertionSort (α := Nat) (· ≤ ·) (matched.map
          (fun t => occurrencesOf content ((lowerString t).toList))).flatten).tail
        = gaps
    cases hmin : gaps.min? with
    | none => rfl
    | some d =>
      unfold proximityWeight proximityDistance
      dsimp only
      by_cases hd : d ≤ 200
      · rw [if_pos hd, if_pos hd]
        norm_num
      · rw [if_neg hd, if_neg hd]

/-- Shared form of the scoring-formula result (used by the C2 theorem
and by concrete score evaluations). -/
theorem scoreChunk_eq_spec (chunk : QChunk) (concept : TopicConcept)
    (hnodup : concept.terms.Nodup)
    (hpresent : ∀ t ∈ concept.terms, (mget concept.termMetadata t).isSome = true)
    (hIff : ∀ t ∈ concept.terms,
      ((specMeta concept t).isOriginal = true ↔ t ∈ concept.originalTerms)) :
    (scoreChunk chunk concept).originalTermScore
        = specOrigOf (chunk.content.toList.map Char.toLower) concept concept.terms ∧
    (scoreChunk chunk concept).semanticScore
        = specSemOf (chunk.content.toList.map Char.toLower) concept concept.terms ∧
    (scoreChunk chunk concept).proximityScore
        = specProxOf (chunk.content.toList.map Char.toLower) concept.terms ∧
    (scoreChunk chunk concept).totalScore
        = specOrigOf (chunk.content.toList.map Char.toLower) concept concept.terms
          + specSemOf (chunk.content.toList.map Char.toLower) concept concept.terms
          + specProxOf (chunk.content.toList.map Char.toLower) concept.terms := by
  have hfold := scoreStep_foldl (chunk.content.toList.map Char.toLower) concept
    concept.terms hIff ⟨0, 0, [], []⟩
  have hmatched : (specMatchedOf (chunk.content.toList.map Char.toLower)
      concept.terms).Nodup := List.Nodup.filter _ hnodup
  have hdedup : (specMatchedOf (chunk.content.toList.map Char.toLower)
      concept.terms).dedup
        = specMatchedOf (chunk.content.toList.map Char.toLower) concept.terms :=
    List.Nodup.dedup hmatched
  simp only [scoreChunk]
  rw [hfold]
  dsimp only
  simp only [zero_add, List.nil_append]
  refine ⟨trivial, trivial, ?_, ?_⟩
  · rw [specProxOf, hdedup, calculateProximityScore_eq_formula]
  · rw [specProxOf, hdedup, calculateProximityScore_eq_formula]

/-- C2: `scoreChunk` computes exactly the claimed hybrid score: each
matched original term adds 100; each matched non-original term adds
`30*s` when its similarity `s` is at least 0.7 and `30*s*0.5` otherwise;
and with at least two distinct matched terms the proximity component is
`50*(1 - d/200)` for the minimum adjacent gap `d` of the sorted
occurrence offsets when `d` is at most 200, else 0.  Hypotheses: the
term list of the concept is duplicate-free, every term has a metadata
entry, and the `isOriginal` flag of a term agrees with membership in
`originalTerms`. -/
theorem c2_scoreChunk_formula (chunk : QChunk) (concept : TopicConcept)
    (hnodup : concept.terms.Nodup)
    (hpresent : ∀ t ∈ concept.terms, (mget concept.termMetadata t).isSome = true)
    (hIff : ∀ t ∈ concept.terms,
      ((specMeta concept t).isOriginal = true ↔ t ∈ concept.originalTerms)) :
    (scoreChunk chunk concept).originalTermScore
        = specOrigOf (chunk.content.toList.map Char.toLower) concept concept.terms ∧
    (scoreChunk chunk concept).semanticScore
        = specSemOf (chunk.content.toList.map Char.toLower) concept concept.terms ∧
    (scoreChunk chunk concept).proximityScore
        = specProxOf (chunk.content.toList.map Char.toLower) concept.terms ∧
    (scoreChunk chunk concept).totalScore
        = specOrigOf (chunk.content.toList.map Char.toLower) concept concept.terms
          + specSemOf (chunk.content.toList.map Char.toLower) concept concept.terms
          + specProxOf (chunk.content.toList.map Char.toLower) concept.terms :=
  scoreChunk_eq_spec chunk concept hnodup hpresent hIff

/-- The chunk of the C2 witness (scenario S2 of the spec). -/
def c2Chunk : QChunk := ⟨1, 0, "configure GPS now"⟩

/-- The concept of the C2 witness: two original terms with metadata. -/
noncomputable def c2Concept : TopicConcept :=
  ⟨["configure", "gps"], ["configure", "gps"],
   [("configure", ⟨1, true⟩), ("gps", ⟨1, true⟩)]⟩

/-- Witness for C2 at a concrete chunk and concept. -/
theorem c2_scoreChunk_formula_witness :
    (scoreChunk c2Chunk c2Concept).originalTermScore
        = specOrigOf (c2Chunk.content.toList.map Char.toLower) c2Concept
            c2Concept.terms ∧
    (scoreChunk c2Chunk c2Concept).semanticScore
        = specSemOf (c2Chunk.content.toList.map Char.toLower) c2Concept
            c2Concept.terms ∧
    (scoreChunk c2Chunk c2Concept).proximityScore
        = specProxOf (c2Chunk.content.toList.map Char.toLower) c2Concept.terms ∧
    (scoreChunk c2Chunk c2Concept).totalScore
        = specOrigOf (c2Chunk.content.toList.map Char.toLower) c2Concept
            c2Concept.terms
          + specSemOf (c2Chunk.content.toList.map Char.toLower) c2Concept
            c2Concept.terms
          + specProxOf (c2Chunk.content.toList.map Char.toLower) c2Concept.terms :=
  c2_scoreChunk_formula c2Chunk c2Concept (by decide) (by decide) (by decide)

/-! ## Claim C3: threshold filtering and ranking order -/

instance : IsTotal SChunk scoreGE :=
  ⟨fun a b => le_total b.relevanceScore a.relevanceScore⟩

instance : IsTrans SChunk scoreGE :=
  ⟨fun _ _ _ hab hbc => le_trans hbc hab⟩

/-- With a non-empty concept list and `spatialCategory = "auto"`,
`executeBlockWithScoring` is the stable descending sort of the
threshold-filtered scored chunks. -/
theorem executeBlock_auto (block : Block) (concept : TopicConcept)
    (rest : List TopicConcept) (chunks : List QChunk)
    (hconc : block.inclusionConcepts = concept :: rest)
    (hauto : block.spatialCategory = "auto") :
    executeBlockWithScoring block chunks =
      List.insertionSort scoreGE
        ((chunks.map (fun c =>
            SChunk.mk c (scoreChunk c concept).totalScore (scoreChunk c concept))).filter
          (fun c => decide (minimumScoreThreshold ≤ c.relevanceScore))) := by
  unfold executeBlockWithScoring
  rw [hconc]
  dsimp only
  rw [hauto, if_neg (by simp)]

/-- C3 (amended): for a block whose spatial category is `auto` (no
spatial filter) and with its single concept, the result is exactly the
scored chunks whose total score reaches `minimumScoreThreshold` (a
permutation of the filtered list), sorted by descending score.  Ties
are NOT broken by ascending `(documentId, chunkNumber)`: the sort is
stable, so equal scores keep the input order — see the counterexample. -/
theorem c3_ranking_properties (block : Block) (concept : TopicConcept)
    (rest : List TopicConcept) (chunks : List QChunk)
    (hconc : block.inclusionConcepts = concept :: rest)
    (hauto : block.spatialCategory = "auto") :
    List.Perm (executeBlockWithScoring block chunks)
      ((chunks.map (fun c =>
          SChunk.mk c (scoreChunk c concept).totalScore (scoreChunk c concept))).filter
        (fun c => decide (minimumScoreThreshold ≤ c.relevanceScore))) ∧
    (executeBlockWithScoring block chunks).Sorted scoreGE := by
  rw [executeBlock_auto block concept rest chunks hconc hauto]
  exact ⟨List.perm_insertionSort scoreGE _, List.sorted_insertionSort scoreGE _⟩

/-- The concept of the C3 input: a single original term `"tt"`. -/
noncomputable def c3Concept : TopicConcept :=
  ⟨["tt"], ["tt"], [("tt", ⟨1, true⟩)]⟩

/-- C3 input chunk of document 1. -/
def c3ChunkA : QChunk := ⟨1, 0, "tt"⟩

/-- C3 input chunk of document 2 (listed first). -/
def c3ChunkB : QChunk := ⟨2, 0, "tt"⟩

/-- The C3 block: auto spatial category, single concept. -/
noncomputable def c3Block : Block := ⟨1, "q", [c3Concept], "auto"⟩

/-- Both C3 chunks have content `"tt"` and score exactly 100. -/
theorem c3_score_tt (c : QChunk) (hc : c.content = "tt") :
    (scoreChunk c c3Concept).totalScore = 100 := by
  have h := (scoreChunk_eq_spec c c3Concept (by decide) (by decide) (by decide)).2.2.2
  rw [h, hc]
  have h1 : specOrigOf ("tt".toList.map Char.toLower) c3Concept c3Concept.terms
      = 100 := by
    have he : ((specMatchedOf ("tt".toList.map Char.toLower) c3Concept.terms).filter
        (fun t => (specMeta c3Concept t).isOriginal)).length = 1 := by decide
    rw [specOrigOf, he]
    norm_num
  have h2 : specSemOf ("tt".toList.map Char.toLower) c3Concept c3Concept.terms
      = 0 := by
    have he : ((specMatchedOf ("tt".toList.map Char.toLower) c3Concept.terms).filter
        (fun t => !(specMeta c3Concept t).isOriginal)) = [] := by decide
    rw [specSemOf, he]
    simp
  have h3 : specProxOf ("tt".toList.map Char.toLower) c3Concept.terms = 0 := by
    rw [specProxOf, if_neg (by decide)]
  rw [h1, h2, h3]
  norm_num

/-- C3 (counterexample): two chunks with equal score 100, given in the
order (document 2, chunk 0) then (document 1, chunk 0), are returned in
that same input order — the claimed ascending `(documentId,
chunkNumber)` tiebreak does not happen. -/
theorem c3_counterexample :
    (executeBlockWithScoring c3Block [c3ChunkB, c3ChunkA]).map
        (fun c => (c.chunk.documentId, c.chunk.chunkNumber)) = [(2, 0), (1, 0)] ∧
    (executeBlockWithScoring c3Block [c3ChunkB, c3ChunkA]).map
        (fun c => c.relevanceScore) = [100, 100] := by
  have hB := c3_score_tt c3ChunkB rfl
  have hA := c3_score_tt c3ChunkA rfl
  have hres : executeBlockWithScoring c3Block [c3ChunkB, c3ChunkA]
      = [SChunk.mk c3ChunkB 100 (scoreChunk c3ChunkB c3Concept),
         SChunk.mk c3ChunkA 100 (scoreChunk c3ChunkA c3Concept)] := by
    rw [executeBlock_auto c3Block c3Concept [] [c3ChunkB, c3ChunkA] rfl rfl]
    rw [show ([c3ChunkB, c3ChunkA].map (fun c =>
        SChunk.mk c (scoreChunk c c3Concept).totalScore (scoreChunk c c3Concept)))
      = [SChunk.mk c3ChunkB 100 (scoreChunk c3ChunkB c3Concept),
         SChunk.mk c3ChunkA 100 (scoreChunk c3ChunkA c3Concept)] from by
      simp only [List.map_cons, List.map_nil, hA, hB]]
    rw [show List.filter (fun c => decide (minimumScoreThreshold ≤ c.relevanceScore))
        [SChunk.mk c3ChunkB 100 (scoreChunk c3ChunkB c3Concept),
         SChunk.mk c3ChunkA 100 (scoreChunk c3ChunkA c3Concept)]
      = [SChunk.mk c3ChunkB 100 (scoreChunk c3ChunkB c3Concept),
         SChunk.mk c3ChunkA 100 (scoreChunk c3ChunkA c3Concept)] from by
      simp only [List.filter_cons, List.filter_nil, decide_eq_true_eq]
      rw [if_pos (by norm_num [minimumScoreThreshold] :
            minimumScoreThreshold ≤ (100 : ℝ)),
          if_pos (by norm_num [minimumScoreThreshold] :
            minimumScoreThreshold ≤ (100 : ℝ))]]
    simp [List.insertionSort, List.orderedInsert, scoreGE]
  rw [hres]
  constructor
  · rfl
  · rfl

/-- Witness for C3 at a concrete auto-mode block. -/
theorem c3_ranking_witness :
    List.Perm (executeBlockWithScoring c3Block [c3ChunkB, c3ChunkA])
      (([c3ChunkB, c3ChunkA].map (fun c =>
          SChunk.mk c (scoreChunk c c3Concept).totalScore (scoreChunk c c3Concept))).filter
        (fun c => decide (minimumScoreThreshold ≤ c.relevanceScore))) ∧
    (executeBlockWithScoring c3Block [c3ChunkB, c3ChunkA]).Sorted scoreGE :=
  c3_ranking_properties c3Block c3Concept [] [c3ChunkB, c3ChunkA] rfl rfl

/-! ## Claim C7: chronological order inside every emitted topic section -/

/-- Strict lexicographic order on `(documentId, chunkNumber)`. -/
def keyLT (a b : PackChunk) : Prop :=
  a.documentId < b.documentId ∨
    (a.documentId = b.documentId ∧ a.chunkNumber < b.chunkNumber)

theorem keyLT_of_chronoLE_ne (a b : PackChunk) (hle : chronoLE a b)
    (hne : (a.documentId, a.chunkNumber) ≠ (b.documentId, b.chunkNumber)) :
    keyLT a b := by
  rcases hle with h | ⟨hd, hn⟩
  · exact Or.inl h
  · right
    refine ⟨hd, lt_of_le_of_ne hn ?_⟩
    intro he
    exact hne (by rw [hd, he])

instance : IsTotal PackChunk chronoLE :=
  ⟨fun a b => by
    unfold chronoLE
    rcases lt_trichotomy a.documentId b.documentId with h | h | h
    · exact Or.inl (Or.inl h)
    · rcases le_total a.chunkNumber b.chunkNumber with hn | hn
      · exact Or.inl (Or.inr ⟨h, hn⟩)
      · exact Or.inr (Or.inr ⟨h.symm, hn⟩)
    · exact Or.inr (Or.inl h)⟩

instance : IsTrans PackChunk chronoLE :=
  ⟨fun a b c hab hbc => by
    unfold chronoLE at *
    rcases hab with h1 | ⟨h1, h1n⟩ <;> rcases hbc with h2 | ⟨h2, h2n⟩
    · exact Or.inl (lt_trans h1 h2)
    · exact Or.inl (h2 ▸ h1)
    · exact Or.inl (h1 ▸ h2)
    · exact Or.inr ⟨h1.trans h2, le_trans h1n h2n⟩⟩

/-- Sorting chronologically with duplicate-free `(documentId,
chunkNumber)` keys yields a strictly increasing list. -/
theorem sortChronological_strict (chunks : List PackChunk)
    (h : (chunks.map (fun c => (c.documentId, c.chunkNumber))).Nodup) :
    (sortChunksChronologically chunks).Pairwise keyLT := by
  have hsorted : (sortChunksChronologically chunks).Pairwise chronoLE :=
    List.sorted_insertionSort chronoLE chunks
  have hperm : List.Perm (sortChunksChronologically chunks) chunks :=
    List.perm_insertionSort chronoLE chunks
  have hne : chunks.Pairwise
      (fun a b => (a.documentId, a.chunkNumber) ≠ (b.documentId, b.chunkNumber)) :=
    List.pairwise_map.mp h
  have hsym : Symmetric (fun a b : PackChunk =>
      (a.documentId, a.chunkNumber) ≠ (b.documentId, b.chunkNumber)) :=
    fun _ _ hab => Ne.symm hab
  have hne2 : (sortChunksChronologically chunks).Pairwise
      (fun a b => (a.documentId, a.chunkNumber) ≠ (b.documentId, b.chunkNumber)) :=
    (hperm.pairwise_iff @hsym).mpr hne
  exact (hsorted.and hne2).imp (fun hab => keyLT_of_chronoLE_ne _ _ hab.1 hab.2)

/-- A topic section whose chunk list is strictly chronological. -/
def GoodSec (sec : TopicSection) : Prop := sec.chunks.Pairwise keyLT

/-- All sections held in the packer state are strictly chronological. -/
def GoodSt (st : PackSt) : Prop :=
  (∀ sec ∈ st.currentTopics, GoodSec sec) ∧
  (∀ sc ∈ st.done, ∀ sec ∈ sc.topics, GoodSec sec)

theorem packChunks_inv (maxChars headerChars thChars tid : Nat) (tq : String) :
    ∀ (cs : List PackChunk) (st : PackSt) (sec : TopicSection),
      GoodSt st → (sec.chunks ++ cs).Pairwise keyLT →
      GoodSt (packChunks maxChars headerChars thChars tid tq st sec cs).1 ∧
      GoodSec (packChunks maxChars headerChars thChars tid tq st sec cs).2 := by
  intro cs
  induction cs with
  | nil =>
    intro st sec hst hsec
    rw [List.append_nil] at hsec
    exact ⟨hst, hsec⟩
  | cons c rest ih =>
    intro st sec hst hsec
    have hsecGood : GoodSec sec :=
      hsec.sublist (List.sublist_append_left _ _)
    have htail : ((c :: rest) : List PackChunk).Pairwise keyLT :=
      hsec.sublist (List.sublist_append_right _ _)
    rw [packChunks]
    split <;> split <;> split
    · dsimp only
      apply ih
      · constructor
        · intro sec2 hsec2
          cases hsec2
        · intro sc hsc sec2 hsec2
          rcases List.mem_append.mp hsc with hold | hnew
          · exact hst.2 sc hold sec2 hsec2
          · rcases List.mem_singleton.mp hnew with rfl
            dsimp only at hsec2
            by_cases hse : sec.chunks ≠ []
            · rw [if_pos hse] at hsec2
              rcases List.mem_append.mp hsec2 with h1 | h1
              · exact hst.1 sec2 h1
              · rcases List.mem_singleton.mp h1 with rfl
                exact hsecGood
            · rw [if_neg hse] at hsec2
              exact hst.1 sec2 hsec2
      · show (([c] : List PackChunk) ++ rest).Pairwise keyLT
        simpa using htail
    · apply ih
      · exact hst
      · show ((sec.chunks ++ [c]) ++ rest).Pairwise keyLT
        rw [List.append_assoc]
        simpa using hsec
    · dsimp only
      apply ih
      · constructor
        · intro sec2 hsec2
          cases hsec2
        · intro sc hsc sec2 hsec2
          rcases List.mem_append.mp hsc with hold | hnew
          · exact hst.2 sc hold sec2 hsec2
          · rcases List.mem_singleton.mp hnew with rfl
            dsimp only at hsec2
            by_cases hse : sec.chunks ≠ []
            · rw [if_pos hse] at hsec2
              rcases List.mem_append.mp hsec2 with h1 | h1
              · exact hst.1 sec2 h1
              · rcases List.mem_singleton.mp h1 with rfl
                exact hsecGood
            · rw [if_neg hse] at hsec2
              exact hst.1 sec2 hsec2
      · show (([c] : List PackChunk) ++ rest).Pairwise keyLT
        simpa using htail
    · apply ih
      · exact hst
      · show ((sec.chunks ++ [c]) ++ rest).Pairwise keyLT
        rw [List.append_assoc]
        simpa using hsec
    · dsimp only
      apply ih
      · constructor
        · intro sec2 hsec2
          cases hsec2
        · intro sc hsc sec2 hsec2
          rcases List.mem_append.mp hsc with hold | hnew
          · exact hst.2 sc hold sec2 hsec2
          · rcases List.mem_singleton.mp hnew with rfl
            dsimp only at hsec2
            by_cases hse : sec.chunks ≠ []
            · rw [if_pos hse] at hsec2
              rcases List.mem_append.mp hsec2 with h1 | h1
              · exact hst.1 sec2 h1
              · rcases List.mem_singleton.mp h1 with rfl
                exact hsecGood
            · rw [if_neg hse] at hsec2
              exact hst.1 sec2 hsec2
      · show (([c] : List PackChunk) ++ rest).Pairwise keyLT
        simpa using htail
    · apply ih
      · exact hst
      · show ((sec.chunks ++ [c]) ++ rest).Pairwise keyLT
        rw [List.append_assoc]
        simpa using hsec
    · dsimp only
      apply ih
      · constructor
        · intro sec2 hsec2
          cases hsec2
        · intro sc hsc sec2 hsec2
          rcases List.mem_append.mp hsc with hold | hnew
          · exact hst.2 sc hold sec2 hsec2
          · rcases List.mem_singleton.mp hnew with rfl
            dsimp only at hsec2
            by_cases hse : sec.chunks ≠ []
            · rw [if_pos hse] at hsec2
              rcases List.mem_append.mp hsec2 with h1 | h1
              · exact hst.1 sec2 h1
              · rcases List.mem_singleton.mp h1 with rfl
                exact hsecGood
            · rw [if_neg hse] at hsec2
              exact hst.1 sec2 hsec2
      · show (([c] : List PackChunk) ++ rest).Pairwise keyLT
        simpa using htail
    · apply ih
      · exact hst
      · show ((sec.chunks ++ [c]) ++ rest).Pairwise keyLT
        rw [List.append_assoc]
        simpa using hsec

theorem packTopic_inv (maxChars headerChars : Nat) (ti : Nat × TopicResult)
    (st : PackSt) (hst : GoodSt st)
    (hnodup : (ti.2.chunks.map (fun c => (c.documentId, c.chunkNumber))).Nodup) :
    GoodSt (packTopic maxChars headerChars st ti) := by
  unfold packTopic
  dsimp only
  split
  · exact hst
  · have hsorted := sortChronological_strict ti.2.chunks hnodup
    have hinv := packChunks_inv maxChars headerChars
      (topicHeaderText ti.1 ti.2.topicQuestion).length ti.2.topicId
      ti.2.topicQuestion (sortChunksChronologically ti.2.chunks) st
      ⟨ti.2.topicId, ti.2.topicQuestion, [], false⟩ hst (by simpa using hsorted)
    split
    · constructor
      · intro sec2 hsec2
        rcases List.mem_append.mp hsec2 with h1 | h1
        · exact hinv.1.1 sec2 h1
        · rcases List.mem_singleton.mp h1 with rfl
          exact hinv.2
      · exact hinv.1.2
    · exact hinv.1

theorem foldl_packTopic_inv (maxChars headerChars : Nat) :
    ∀ (l : List (Nat × TopicResult)),
      (∀ p ∈ l, (p.2.chunks.map (fun c => (c.documentId, c.chunkNumber))).Nodup) →
      ∀ st, GoodSt st →
      GoodSt (l.foldl (packTopic maxChars headerChars) st) := by
  intro l
  induction l with
  | nil => intro _ st hst; exact hst
  | cons p rest ih =>
    intro hl st hst
    simp only [List.foldl_cons]
    exact ih (fun q hq => hl q (List.mem_cons_of_mem p hq)) _
      (packTopic_inv maxChars headerChars p st hst
        (hl p (List.mem_cons_self p rest)))

/-- C7: in every topic section of every super chunk the packer emits,
the chunks are in strictly increasing chronological order: every
adjacent pair satisfies `(documentId, chunkNumber) < (documentId,
chunkNumber)` lexicographically (assuming no topic contains two chunks
with the same `(documentId, chunkNumber)` key). -/
theorem c7_chronological_sections (topicResults : List TopicResult)
    (maxChars : Nat) (allTopics : List String)
    (hnodup : ∀ tr ∈ topicResults,
      (tr.chunks.map (fun c => (c.documentId, c.chunkNumber))).Nodup) :
    ∀ sc ∈ createSuperChunksWithTopics topicResults maxChars allTopics,
      ∀ sec ∈ sc.topics, List.Chain' keyLT sec.chunks := by
  have hmem : ∀ p ∈ topicResults.enum, p.2 ∈ topicResults := by
    intro p hp
    have := List.mem_map_of_mem Prod.snd hp
    rwa [List.enum_map_snd] at this
  have hfold : GoodSt ((topicResults.enum).foldl
      (packTopic maxChars (formatChatPackageHeader allTopics).length)
      ⟨0, [], true, []⟩) := by
    apply foldl_packTopic_inv
    · intro p hp
      exact hnodup p.2 (hmem p hp)
    · exact ⟨fun _ h => absurd h (List.not_mem_nil _), fun _ h => absurd h (List.not_mem_nil _)⟩
  intro sc hsc sec hsec
  have hgood : GoodSec sec := by
    unfold createSuperChunksWithTopics at hsc
    dsimp only at hsc
    by_cases hcur : ((topicResults.enum).foldl
        (packTopic maxChars (formatChatPackageHeader allTopics).length)
        ⟨0, [], true, []⟩).currentTopics ≠ []
    · rw [if_pos hcur] at hsc
      rcases List.mem_append.mp hsc with h1 | h1
      · exact hfold.2 sc h1 sec hsec
      · rcases List.mem_singleton.mp h1 with rfl
        exact hfold.1 sec hsec
    · rw [if_neg hcur] at hsc
      exact hfold.2 sc hsc sec hsec
  exact hgood.chain'

/-- The topic results of the C7 witness (chunks given out of order). -/
def c7Input : List TopicResult :=
  [⟨1, "q", [⟨1, 1, "x", 100⟩, ⟨1, 0, "y", 100⟩]⟩]

deriving instance DecidableEq for PackChunk

deriving instance DecidableEq for TopicSection

deriving instance DecidableEq for SuperChunk

instance : Inhabited TopicSection := ⟨⟨0, "", [], false⟩⟩

instance : Inhabited SuperChunk := ⟨⟨[], 0, false⟩⟩

/-- Witness for C7 at a concrete input: the section of the single
emitted super chunk is chronologically ordered. -/
theorem c7_chronological_witness :
    List.Chain' keyLT
      ((createSuperChunksWithTopics c7Input 1000 ["q"]).headI.topics.headI.chunks) :=
  c7_chronological_sections c7Input 1000 ["q"] (by decide)
    ((createSuperChunksWithTopics c7Input 1000 ["q"]).headI) (by decide)
    ((createSuperChunksWithTopics c7Input 1000 ["q"]).headI.topics.headI) (by decide)

end Invantia
